import Mathlib

/-!
# Histograms using threads: a shallow embedding of `main.cpp`

The program computes a 256-bin histogram of the bytes of a file twice:
`globalHist` (workers claim offsets from the atomic cursor `globalIndex` and
bump one shared histogram under `histoMutex`) and `localHist` (each worker
counts a contiguous range into a private histogram, then all are merged).

Conventions of the embedding (LP64 target: `size_t` is 64 bits, `int` and
`unsigned int` are 32 bits):

* a `char` of the buffer is an `Int` (its stored value), the buffer a `List Int`;
* `size_t` values are `Nat` reduced `% 2 ^ 64`, `unsigned int` values are `Nat`
  reduced `% 2 ^ 32`, the `int index` of `globalHist` is an `Int` obtained by
  two's-complement truncation;
* a `vector<long long int>` histogram is a `List Nat`; the counters never reach
  `2 ^ 63` (each worker adds fewer than `2 ^ 32` and there are fewer than
  `2 ^ 31` workers), so they are not reduced;
* undefined behaviour (a read outside the buffer, a bin outside the vector, a
  division by zero) is an explicit `Fault`.
-/

namespace Histogram

/-! ## Data model -/

/-- Faults of the embedding: the places where the C++ program would leave
defined behaviour. -/
inductive Fault where
  | oobRead
  | oobBin
  | divByZero
  deriving DecidableEq, Repr

/-- A histogram, `vector<long long int>`. -/
abbrev Hist := List Nat

/-- Number of values of `size_t`. -/
def SIZE_T_MOD : Nat := 2 ^ 64

/-- Number of values of `unsigned int`. -/
def UINT_MOD : Nat := 2 ^ 32

/-- First value above `INT_MAX`. -/
def INT_LIMIT : Nat := 2 ^ 31

/-- The conversion `static_cast<unsigned char>(c)` of lines 70 and 116: the
value of `c` modulo `2 ^ 8`. -/
def toUChar (c : Int) : Nat := (c % 256).toNat

/-- The vector `vector<long long int>(256, 0)` of lines 52, 94 and 100. -/
def zeroHist : Hist := List.replicate 256 0

/-- The access `hist.at(b)++` (line 118): one more in bin `b`, a fault when `b`
is not an index of the vector. -/
def incrBin (h : Hist) (b : Nat) : Except Fault Hist :=
  if b < h.length then .ok (h.set b (h.getD b 0 + 1)) else .error .oobBin

/-! ## `localHist` (lines 90-138) -/

/-- The counting loop of lines 115-119, `for (auto j = start; j < end; ++j)`,
with `n` iterations left and the loop variable at `j`. (`j < end < 2 ^ 32`
inside the loop, so `++j` never wraps.) -/
def countFrom (data : List Int) : Nat → Nat → Hist → Except Fault Hist
  | 0, _, h => .ok h
  | n + 1, j, h =>
    match data[j]? with
    | none => .error .oobRead
    | some c =>
      match incrBin h (toUChar c) with
      | .error e => .error e
      | .ok h1 => countFrom data n (j + 1) h1

/-- Line 96: `size_t workLoad = numOfBytes / numThreads`. -/
def workLoad (numOfBytes numThreads : Nat) : Nat := numOfBytes / numThreads

/-- Line 105: `unsigned int start = i * workLoad`, the product taken in
`size_t` and stored in 32 bits. -/
def workerStart (numOfBytes numThreads i : Nat) : Nat :=
  (i * workLoad numOfBytes numThreads) % SIZE_T_MOD % UINT_MOD

/-- Lines 106-112: `end = numOfBytes` for the last worker, `start + workLoad`
for the others, the value stored in 32 bits. -/
def workerEnd (numOfBytes numThreads i : Nat) : Nat :=
  if i = numThreads - 1 then numOfBytes % UINT_MOD
  else (workerStart numOfBytes numThreads i + workLoad numOfBytes numThreads)
    % SIZE_T_MOD % UINT_MOD

/-- The body of worker `i` (lines 103-120): count `[start, end)` into the
private histogram `localHistos.at(i)`, which starts as 256 zeros. -/
def localWorker (data : List Int) (numOfBytes numThreads i : Nat) : Except Fault Hist :=
  countFrom data
    (workerEnd numOfBytes numThreads i - workerStart numOfBytes numThreads i)
    (workerStart numOfBytes numThreads i) zeroHist

/-- The private histograms of workers `0 .. k-1` after the join of lines
124-126. The workers share no mutable state, so their interleaving cannot be
observed and they are run one after the other. -/
def localHistos (data : List Int) (numOfBytes numThreads : Nat) : Nat → Except Fault (List Hist)
  | 0 => .ok []
  | k + 1 =>
    match localHistos data numOfBytes numThreads k with
    | .error e => .error e
    | .ok hs =>
      match localWorker data numOfBytes numThreads k with
      | .error e => .error e
      | .ok h => .ok (hs ++ [h])

/-- The inner merge loop of lines 131-133:
`for (int i = 0; i < 256; ++i) finalHisto[i] += localHisto[i]`. -/
def mergeInto (finalHisto localHisto : Hist) : Hist :=
  (List.range 256).foldl
    (fun f i => f.set i (f.getD i 0 + localHisto.getD i 0)) finalHisto

/-- The merge of lines 130-134 over all private histograms, in worker order. -/
def mergeAll (finalHisto : Hist) (locals : List Hist) : Hist :=
  locals.foldl mergeInto finalHisto

/-- The function `localHist` (lines 90-138): the histogram it hands to
`printHisto`. `numThreads = 0` makes line 96 divide by zero. -/
def localHist (data : List Int) (numOfBytes numThreads : Nat) : Except Fault Hist :=
  if numThreads = 0 then .error .divByZero
  else
    match localHistos data numOfBytes numThreads numThreads with
    | .error e => .error e
    | .ok locals => .ok (mergeAll zeroHist locals)

/-! ## `globalHist` (lines 48-87) -/

/-- Where a worker of `globalHist` stands in the loop body of lines 59-76.
Each constructor is the point just before one step on shared state:
`fetch` before `globalIndex.fetch_add(1)` (line 62); `lock b` before
`histoMutex.lock()` (line 73), the offset checked and its byte read as `b`;
`load b` and `store b t` before the read and the write of
`GlobalHist[b]++` (line 74), `t` the value read; `unlock` before
`histoMutex.unlock()` (line 75); `done` after the `break` of line 66;
`fault f` after undefined behaviour. -/
inductive PC where
  | fetch
  | lock (b : Nat)
  | load (b : Nat)
  | store (b : Nat) (t : Nat)
  | unlock
  | done
  | fault (f : Fault)
  deriving DecidableEq, Repr

/-- The shared state of a call of `globalHist` together with its workers:
the process-wide cursor `globalIndex` (line 16), the owner of `histoMutex`
(line 19) when it is locked, the vector `GlobalHist` (line 52), and the
program point of every worker. -/
structure GState where
  globalIndex : Nat
  histoMutex : Option Nat
  GlobalHist : Hist
  workers : List PC
  deriving DecidableEq, Repr

/-- The conversion of line 62, `int index = <size_t value>`: the low 32 bits
read in two's complement. -/
def toInt32 (c : Nat) : Int :=
  if c % UINT_MOD < INT_LIMIT then (c % UINT_MOD : Nat) else ((c % UINT_MOD : Nat) : Int) - (UINT_MOD : Nat)

/-- The conversion of `index` to `size_t` that the comparison
`index >= numOfBytes` of line 65 performs. -/
def intToSizeT (i : Int) : Nat := (i % (SIZE_T_MOD : Nat)).toNat

/-- The read `data[index]` of line 70 with an `int` index. -/
def readAt (data : List Int) (index : Int) : Option Int :=
  if index < 0 then none else data[index.toNat]?

/-- The state after worker `i` moves to program point `pc`. -/
def GState.goto (s : GState) (i : Nat) (pc : PC) : GState :=
  { s with workers := s.workers.set i pc }

/-- One step of worker `i`: `none` when it has no step to take (it is done,
it has faulted, it waits for a locked mutex, or there is no such worker). -/
def gstep (data : List Int) (numOfBytes : Nat) (s : GState) (i : Nat) : Option GState :=
  match s.workers[i]? with
  | none => none
  | some .fetch =>
    let index := toInt32 s.globalIndex
    let s1 := { s with globalIndex := (s.globalIndex + 1) % SIZE_T_MOD }
    if numOfBytes ≤ intToSizeT index then some (s1.goto i .done)
    else
      match readAt data index with
      | none => some (s1.goto i (.fault .oobRead))
      | some c => some (s1.goto i (.lock (toUChar c)))
  | some (.lock b) =>
    match s.histoMutex with
    | some _ => none
    | none => some ({ s with histoMutex := some i }.goto i (.load b))
  | some (.load b) =>
    if b < s.GlobalHist.length then some (s.goto i (.store b (s.GlobalHist.getD b 0)))
    else some (s.goto i (.fault .oobBin))
  | some (.store b t) =>
    some ({ s with GlobalHist := s.GlobalHist.set b (t + 1) }.goto i .unlock)
  | some .unlock => some ({ s with histoMutex := none }.goto i .fetch)
  | some .done => none
  | some (.fault _) => none

/-- Run a schedule: the list of the workers that step, in order. `none` when
a scheduled worker has no step to take. -/
def grun (data : List Int) (numOfBytes : Nat) : GState → List Nat → Option GState
  | s, [] => some s
  | s, i :: rest =>
    match gstep data numOfBytes s i with
    | none => none
    | some s1 => grun data numOfBytes s1 rest

/-- The state in which a call of `globalHist` starts its `numThreads`
workers (lines 52-58): the cursor as the process left it, the mutex free, 256
zero bins. -/
def ginit (cursor numThreads : Nat) : GState :=
  { globalIndex := cursor, histoMutex := none, GlobalHist := zeroHist,
    workers := List.replicate numThreads .fetch }

/-- Every worker has left its loop, so the joins of lines 81-83 return. -/
def allDone (s : GState) : Bool := s.workers.all (fun pc => pc == .done)

/-- The function `globalHist` (lines 48-87) as a relation between a call and
its outcomes: entered with the cursor at `cursor`, the call can hand the
histogram `h` to `printHisto` and leave the cursor at `cursor1`, that is, some
schedule of the workers' steps leads from the initial state to a state where
all have finished. -/
def globalHist (data : List Int) (numOfBytes numThreads cursor : Nat)
    (h : Hist) (cursor1 : Nat) : Prop :=
  ∃ sched s, grun data numOfBytes (ginit cursor numThreads) sched = some s ∧
    allDone s = true ∧ s.GlobalHist = h ∧ s.globalIndex = cursor1

/-! ## Specification-side counts -/

/-- The number of offsets `j` in `[0, length)` whose byte, read as unsigned,
is `v`. -/
def exactCount (data : List Int) (v : Nat) : Nat :=
  (List.range data.length).countP
    (fun j => (data[j]?).map toUChar == some v)

/-- The number of offsets `j` in `[a, a + n)` whose byte, read as unsigned,
is `v`. -/
def rangeCount (data : List Int) (a n v : Nat) : Nat :=
  ((data.drop a).take n).countP (fun c => toUChar c == v)

/-- The sum of the bins of a histogram. -/
def binSum (h : Hist) : Nat := h.sum

/-- The number of offsets with unsigned byte `v` inside the ranges
`[start, end)` that workers `0 .. k-1` of `localHist` compute (an offset
counts once for every range that holds it). -/
def coveredCount (data : List Int) (numOfBytes numThreads : Nat) : Nat → Nat → Nat
  | 0, _ => 0
  | k + 1, v =>
    coveredCount data numOfBytes numThreads k v
      + rangeCount data (workerStart numOfBytes numThreads k)
          (workerEnd numOfBytes numThreads k - workerStart numOfBytes numThreads k) v

/-- Bin `v` summed over a list of histograms. -/
def binTotal (hs : List Hist) (v : Nat) : Nat :=
  (hs.map (fun h => h.getD v 0)).sum

/-- A sum over the workers of a per-worker quantity. -/
def wsum (f : PC → Nat) (ws : List PC) : Nat := (ws.map f).sum

/-- One for a worker that has left its loop. -/
def doneW : PC → Nat
  | .done => 1
  | _ => 0

/-- One for a worker that has claimed an offset whose byte is `v` and has not
yet written the bin. -/
def pendW (v : Nat) : PC → Nat
  | .lock b => if b = v then 1 else 0
  | .load b => if b = v then 1 else 0
  | .store b _ => if b = v then 1 else 0
  | _ => 0

/-- The steps a worker still takes before its next `fetch_add`. -/
def stepsLeft : PC → Nat
  | .lock _ => 4
  | .load _ => 3
  | .store _ _ => 2
  | .unlock => 1
  | _ => 0

/-- The cursor values a call of `globalHist` meets when it is entered with
the cursor at `c0`: the next `M` values (if any) are offsets of the buffer
that fit an `int`, and each of the `N` values after them fails the test of
line 65; the cursor does not wrap on the way. -/
structure ClaimWindow (data : List Int) (numOfBytes c0 M N : Nat) : Prop where
  fits : 0 < M → c0 + M ≤ 2 ^ 31
  below : 0 < M → c0 + M ≤ numOfBytes
  inData : 0 < M → c0 + M ≤ data.length
  stops : ∀ c, c0 + M ≤ c → c < c0 + M + N → numOfBytes ≤ intToSizeT (toInt32 c)
  noWrap : c0 + M + N < 2 ^ 64

/-- What worker `j` at program point `pc` requires of the shared state: it
owns the mutex exactly between `lock` and `unlock`, its bin is one of the
256, and the value it read from its bin is still there. -/
def PCOk (s : GState) (j : Nat) : PC → Prop
  | .fetch => s.histoMutex ≠ some j
  | .lock b => b < 256 ∧ s.histoMutex ≠ some j
  | .load b => b < 256 ∧ s.histoMutex = some j
  | .store b t => b < 256 ∧ s.histoMutex = some j ∧ t = s.GlobalHist.getD b 0
  | .unlock => s.histoMutex = some j
  | .done => s.histoMutex ≠ some j
  | .fault _ => False

/-- The invariant of a call of `globalHist` over a claim window. -/
structure GInv (data : List Int) (c0 M N : Nat) (s : GState) : Prop where
  nWorkers : s.workers.length = N
  nBins : s.GlobalHist.length = 256
  lo : c0 ≤ s.globalIndex
  hi : s.globalIndex ≤ c0 + M + N
  dones : wsum doneW s.workers = s.globalIndex - (c0 + M)
  bins : ∀ v, s.GlobalHist.getD v 0 + wsum (pendW v) s.workers
    = rangeCount data c0 (min s.globalIndex (c0 + M) - c0) v
  pcs : ∀ j pc, s.workers[j]? = some pc → PCOk s j pc
  owner : ∀ j, s.histoMutex = some j → j < N

/-- The bin a worker of `globalHist` is about to touch is one of the 256,
and it has not faulted on a bin. -/
def BinOk : PC → Prop
  | .lock b => b < 256
  | .load b => b < 256
  | .store b _ => b < 256
  | .fault f => f = .oobRead
  | _ => True

/-- The state of a call of `globalHist` on an empty buffer: nothing counted,
the mutex free, every worker before its first `fetch_add` or finished. -/
def EmptyInv (s : GState) : Prop :=
  s.GlobalHist = zeroHist ∧ s.histoMutex = none ∧
    ∀ pc ∈ s.workers, pc = PC.fetch ∨ pc = PC.done

/-- A bound on the steps a call of `globalHist` still takes. -/
def gmeasure (c0 M N : Nat) (s : GState) : Nat :=
  5 * (c0 + M + N - s.globalIndex) + wsum stepsLeft s.workers

/-- Worker `i` of `localHist` stays inside the buffer: its range, when not
empty, ends at or before the end of the data. -/
def WorkerInBounds (data : List Int) (numOfBytes numThreads i : Nat) : Prop :=
  workerStart numOfBytes numThreads i
    + (workerEnd numOfBytes numThreads i - workerStart numOfBytes numThreads i)
    ≤ data.length


/-! ## The claims of the cursor, the critical section, and `main` -/

/-- The values that the `fetch_add` steps of a schedule return, in the order
of the steps (line 62). The list stops where the schedule cannot go on. -/
def claimsOf (data : List Int) (numOfBytes : Nat) : GState → List Nat → List Nat
  | _, [] => []
  | s, i :: rest =>
    match gstep data numOfBytes s i with
    | none => []
    | some s1 =>
      (if s.workers[i]? = some PC.fetch then [s.globalIndex] else [])
        ++ claimsOf data numOfBytes s1 rest

/-- The `int index` values of the claims that pass the test of line 65, the
offsets whose byte the workers go on to count. -/
def processedOf (numOfBytes : Nat) (claims : List Nat) : List Int :=
  (claims.filter (fun c => decide (intToSizeT (toInt32 c) < numOfBytes))).map toInt32

/-- A worker between `histoMutex.lock()` and `histoMutex.unlock()`: before
the read of the bin, before its write, or before the unlock. -/
def holdsLock : PC → Bool
  | .load _ => true
  | .store _ _ => true
  | .unlock => true
  | _ => false

/-- What worker `j` at a program point requires of the mutex and the bins,
whatever the buffer and the cursor: it owns the mutex exactly between `lock`
and `unlock`, and the value it read from its bin is still there. -/
def MutexOk (s : GState) (j : Nat) : PC → Prop
  | .lock b => b < 256 ∧ s.histoMutex ≠ some j
  | .load b => b < 256 ∧ s.histoMutex = some j
  | .store b t => s.histoMutex = some j ∧ t = s.GlobalHist.getD b 0
  | .unlock => s.histoMutex = some j
  | _ => s.histoMutex ≠ some j

/-- The mutex discipline of `globalHist`: 256 bins, every worker as
`MutexOk` requires, and the owner of a locked mutex is a worker between
`lock` and `unlock`. -/
structure MutexInv (s : GState) : Prop where
  nBins : s.GlobalHist.length = 256
  pcs : ∀ j pc, s.workers[j]? = some pc → MutexOk s j pc
  owner : ∀ j, s.histoMutex = some j → ∃ pc, s.workers[j]? = some pc ∧ holdsLock pc = true

/-- How a run of `main` (lines 144-181) goes: it returns 1 on too many
arguments (lines 150-153), exits when the file cannot be opened (lines
26-30), dies of the exception that the vector constructor of line 100 throws
for a negative count, or calls `globalHist` and `localHist` with the same
worker count; `localResult` is what `localHist` then computes. -/
inductive MainResult where
  | usage
  | cannotOpen
  | uncaught
  | histograms (numThreads : Nat) (localResult : Except Fault Hist)

/-- The function `main`: `arg1` is the argument count, `file` the content of
the named file when it can be read, `hardware_concurrency` the value that
`thread::hardware_concurrency()` returns, stored in the `int numThreads` of
line 161 and handed unchanged to both histogrammers (lines 168 and 175). -/
def main (arg1 : Int) (file : Option (List Int)) (hardware_concurrency : Nat) : MainResult :=
  if arg1 > 2 then .usage
  else
    match file with
    | none => .cannotOpen
    | some data =>
      if toInt32 hardware_concurrency < 0 then .uncaught
      else
        .histograms (toInt32 hardware_concurrency).toNat
          (localHist data data.length (toInt32 hardware_concurrency).toNat)

/-! ## Bins and counts -/

theorem getD_set_bin (h : Hist) (b x v : Nat) (hb : b < h.length) :
    (h.set b x).getD v 0 = if v = b then x else h.getD v 0 := by
  simp only [List.getD_eq_getElem?_getD, List.getElem?_set]
  by_cases hv : v = b
  · subst hv; simp [hb]
  · have hne : b ≠ v := fun e => hv e.symm
    simp [hv, hne]

theorem getD_zeroHist (v : Nat) : zeroHist.getD v 0 = 0 := by
  unfold zeroHist
  simp only [List.getD_eq_getElem?_getD, List.getElem?_replicate]
  split <;> rfl

theorem length_zeroHist : zeroHist.length = 256 :=
  List.length_replicate 256 0

theorem toUChar_lt (c : Int) : toUChar c < 256 := by
  unfold toUChar
  have h1 : 0 ≤ c % 256 := Int.emod_nonneg c (by decide)
  have h2 : c % 256 < 256 := Int.emod_lt_of_pos c (by decide)
  omega

theorem toUChar_of_neg (c : Int) (h1 : -128 ≤ c) (h2 : c < 0) :
    (toUChar c : Int) = c + 256 := by
  unfold toUChar
  omega

theorem toUChar_of_nonneg (c : Int) (h1 : 0 ≤ c) (h2 : c ≤ 127) :
    (toUChar c : Int) = c := by
  unfold toUChar
  omega

theorem incrBin_eq (h : Hist) (b : Nat) (hb : b < h.length) :
    incrBin h b = .ok (h.set b (h.getD b 0 + 1)) := by
  simp [incrBin, hb]

theorem rangeCount_zero (data : List Int) (a v : Nat) : rangeCount data a 0 v = 0 := by
  simp [rangeCount]

theorem rangeCount_succ (data : List Int) (j n v : Nat) (c : Int)
    (hc : data[j]? = some c) :
    rangeCount data j (n + 1) v
      = (if toUChar c = v then 1 else 0) + rangeCount data (j + 1) n v := by
  obtain ⟨hj, hcj⟩ := List.getElem?_eq_some.mp hc
  unfold rangeCount
  rw [List.drop_eq_getElem_cons hj, List.take_succ_cons, List.countP_cons, hcj]
  simp only [beq_iff_eq]
  omega

theorem rangeCount_add (data : List Int) (a m n v : Nat) :
    rangeCount data a (m + n) v = rangeCount data a m v + rangeCount data (a + m) n v := by
  unfold rangeCount
  rw [List.take_add, List.countP_append, List.drop_drop]

theorem rangeCount_of_length_le (data : List Int) (a n v : Nat) (h : data.length ≤ a) :
    rangeCount data a n v = 0 := by
  unfold rangeCount
  rw [List.drop_eq_nil_of_le h]
  simp

theorem countP_range_getElem (l : List Int) (v : Nat) :
    (List.range l.length).countP (fun j => (l[j]?).map toUChar == some v)
      = l.countP (fun c => toUChar c == v) := by
  induction l with
  | nil => simp
  | cons c cs ih =>
    rw [List.length_cons, List.range_succ_eq_map, List.countP_cons, List.countP_map,
      List.countP_cons, ← ih]
    have hf : ((fun j => (((c :: cs)[j]?).map toUChar == some v)) ∘ Nat.succ)
        = (fun j => ((cs[j]?).map toUChar == some v)) := by
      funext j
      simp [Function.comp]
    rw [hf]
    simp

theorem rangeCount_full (data : List Int) (v : Nat) :
    rangeCount data 0 data.length v = exactCount data v := by
  unfold rangeCount exactCount
  rw [countP_range_getElem]
  simp

theorem rangeCount_replicate (n a m : Nat) (c : Int) (v : Nat) :
    rangeCount (List.replicate n c) a m v
      = if toUChar c = v then min m (n - a) else 0 := by
  unfold rangeCount
  rw [List.drop_replicate, List.take_replicate, List.countP_replicate]
  simp

theorem exactCount_replicate (n : Nat) (c : Int) (v : Nat) :
    exactCount (List.replicate n c) v = if toUChar c = v then n else 0 := by
  rw [← rangeCount_full, rangeCount_replicate]
  simp

theorem rangeCount_le (data : List Int) (a n v : Nat) : rangeCount data a n v ≤ n := by
  unfold rangeCount
  exact (List.countP_le_length _).trans (by simp)


/-! ## The counting loop and the merge -/

theorem countFrom_spec (data : List Int) :
    ∀ (n j : Nat) (h : Hist), h.length = 256 → j + n ≤ data.length →
      ∃ h1, countFrom data n j h = .ok h1 ∧ h1.length = 256 ∧
        ∀ v, h1.getD v 0 = h.getD v 0 + rangeCount data j n v := by
  intro n
  induction n with
  | zero =>
    intro j h hlen _
    exact ⟨h, rfl, hlen, fun v => by simp [rangeCount_zero]⟩
  | succ n ih =>
    intro j h hlen hj
    have hjlt : j < data.length := by omega
    have hc : data[j]? = some data[j] := List.getElem?_eq_getElem hjlt
    have hb : toUChar data[j] < h.length := by rw [hlen]; exact toUChar_lt _
    obtain ⟨h1, hrun, hlen1, hbins⟩ :=
      ih (j + 1) (h.set (toUChar data[j]) (h.getD (toUChar data[j]) 0 + 1))
        (by rw [List.length_set]; exact hlen) (by omega)
    refine ⟨h1, ?_, hlen1, ?_⟩
    · simp only [countFrom, hc, incrBin_eq h _ hb]
      exact hrun
    · intro v
      rw [hbins v, getD_set_bin h _ _ v hb, rangeCount_succ data j n v _ hc]
      by_cases hv : v = toUChar data[j]
      · subst hv; simp; omega
      · have hne : ¬ toUChar data[j] = v := fun e => hv e.symm
        simp [hv, hne]

theorem mergeLoop_spec (localHisto : Hist) :
    ∀ (k : Nat) (f : Hist), f.length = 256 → k ≤ 256 →
      ((List.range k).foldl
          (fun f i => f.set i (f.getD i 0 + localHisto.getD i 0)) f).length = 256 ∧
      ∀ v, ((List.range k).foldl
          (fun f i => f.set i (f.getD i 0 + localHisto.getD i 0)) f).getD v 0
        = f.getD v 0 + if v < k then localHisto.getD v 0 else 0 := by
  intro k
  induction k with
  | zero => intro f hlen _; simp [hlen]
  | succ k ih =>
    intro f hlen hk
    obtain ⟨hl, hb⟩ := ih f hlen (by omega)
    rw [List.range_succ, List.foldl_append]
    simp only [List.foldl_cons, List.foldl_nil]
    refine ⟨by rw [List.length_set]; exact hl, ?_⟩
    intro v
    rw [getD_set_bin _ _ _ v (by rw [hl]; omega)]
    by_cases hv : v = k
    · subst hv
      rw [hb v]
      simp
    · rw [hb v]
      simp only [hv, if_false]
      by_cases hlt : v < k
      · have : v < k + 1 := by omega
        simp [hlt, this]
      · have : ¬ v < k + 1 := by omega
        simp [hlt, this]

theorem mergeInto_length (f l : Hist) (hf : f.length = 256) :
    (mergeInto f l).length = 256 :=
  (mergeLoop_spec l 256 f hf (le_refl _)).1

theorem mergeInto_getD (f l : Hist) (hf : f.length = 256) (hl : l.length = 256) (v : Nat) :
    (mergeInto f l).getD v 0 = f.getD v 0 + l.getD v 0 := by
  rw [mergeInto, (mergeLoop_spec l 256 f hf (le_refl _)).2 v]
  by_cases hv : v < 256
  · simp [hv]
  · have : l.getD v 0 = 0 := by
      rw [List.getD_eq_getElem?_getD, List.getElem?_eq_none (by omega)]
      rfl
    rw [if_neg hv, this]

theorem mergeAll_spec (locals : List Hist) :
    ∀ (f : Hist), f.length = 256 → (∀ l ∈ locals, l.length = 256) →
      (mergeAll f locals).length = 256 ∧
      ∀ v, (mergeAll f locals).getD v 0 = f.getD v 0 + binTotal locals v := by
  induction locals with
  | nil => intro f hf _; simp [mergeAll, binTotal, hf]
  | cons l ls ih =>
    intro f hf hall
    have hl : l.length = 256 := hall l (List.mem_cons_self _ _)
    obtain ⟨h1, h2⟩ := ih (mergeInto f l) (mergeInto_length f l hf)
      (fun x hx => hall x (List.mem_cons_of_mem _ hx))
    have hstep : mergeAll f (l :: ls) = mergeAll (mergeInto f l) ls := by
      unfold mergeAll
      rw [List.foldl_cons]
    rw [hstep]
    refine ⟨h1, fun v => ?_⟩
    rw [h2 v, mergeInto_getD f l hf hl v]
    have hb : binTotal (l :: ls) v = l.getD v 0 + binTotal ls v := by
      unfold binTotal
      rw [List.map_cons, List.sum_cons]
    rw [hb]
    omega

theorem binTotal_append (hs : List Hist) (h : Hist) (v : Nat) :
    binTotal (hs ++ [h]) v = binTotal hs v + h.getD v 0 := by
  simp [binTotal]

theorem localWorker_spec (data : List Int) (numOfBytes numThreads i : Nat)
    (hin : WorkerInBounds data numOfBytes numThreads i) :
    ∃ h, localWorker data numOfBytes numThreads i = .ok h ∧ h.length = 256 ∧
      ∀ v, h.getD v 0 = rangeCount data (workerStart numOfBytes numThreads i)
        (workerEnd numOfBytes numThreads i - workerStart numOfBytes numThreads i) v := by
  obtain ⟨h, h1, h2, h3⟩ := countFrom_spec data _ _ zeroHist length_zeroHist hin
  exact ⟨h, h1, h2, fun v => by rw [h3 v, getD_zeroHist]; omega⟩

theorem localHistos_spec (data : List Int) (numOfBytes numThreads : Nat) :
    ∀ k, (∀ i, i < k → WorkerInBounds data numOfBytes numThreads i) →
      ∃ hs, localHistos data numOfBytes numThreads k = .ok hs ∧
        (∀ l ∈ hs, l.length = 256) ∧
        ∀ v, binTotal hs v = coveredCount data numOfBytes numThreads k v := by
  intro k
  induction k with
  | zero => intro _; exact ⟨[], rfl, by simp, fun v => by simp [binTotal, coveredCount]⟩
  | succ k ih =>
    intro hin
    obtain ⟨hs, h1, h2, h3⟩ := ih (fun i hi => hin i (by omega))
    obtain ⟨h, w1, w2, w3⟩ := localWorker_spec data numOfBytes numThreads k (hin k (by omega))
    refine ⟨hs ++ [h], ?_, ?_, ?_⟩
    · simp only [localHistos, h1, w1]
    · intro l hl
      rcases List.mem_append.mp hl with hl | hl
      · exact h2 l hl
      · rw [List.mem_singleton.mp hl]; exact w2
    · intro v
      rw [binTotal_append, h3 v, w3 v, coveredCount]

/-- What `localHist` computes whenever its workers stay inside the buffer:
bin `v` is the number of offsets with byte `v` in the workers' ranges. -/
theorem localHist_counts (data : List Int) (numOfBytes numThreads : Nat)
    (hN : 1 ≤ numThreads)
    (hin : ∀ i, i < numThreads → WorkerInBounds data numOfBytes numThreads i) :
    ∃ h, localHist data numOfBytes numThreads = .ok h ∧ h.length = 256 ∧
      ∀ v, h.getD v 0 = coveredCount data numOfBytes numThreads numThreads v := by
  obtain ⟨hs, h1, h2, h3⟩ := localHistos_spec data numOfBytes numThreads numThreads hin
  obtain ⟨m1, m2⟩ := mergeAll_spec hs zeroHist length_zeroHist h2
  refine ⟨mergeAll zeroHist hs, ?_, m1, fun v => ?_⟩
  · have hne : ¬ numThreads = 0 := by omega
    simp only [localHist, hne, if_false, h1]
  · rw [m2 v, getD_zeroHist, h3 v]; omega


/-! ## The ranges of `localHist` below `2 ^ 32` bytes -/

theorem mul_workLoad_le (L N i : Nat) (hi : i ≤ N) : i * workLoad L N ≤ L := by
  unfold workLoad
  exact (Nat.mul_le_mul_right _ hi).trans (Nat.mul_div_le L N)

theorem workerStart_small (L N i : Nat) (hL : L < 2 ^ 32) (hi : i ≤ N) :
    workerStart L N i = i * workLoad L N := by
  have h := mul_workLoad_le L N i hi
  unfold workerStart SIZE_T_MOD UINT_MOD
  rw [Nat.mod_eq_of_lt (by omega), Nat.mod_eq_of_lt (by omega)]

theorem workerEnd_small_inner (L N i : Nat) (hL : L < 2 ^ 32) (hi : i + 1 < N) :
    workerEnd L N i = (i + 1) * workLoad L N := by
  have h := mul_workLoad_le L N (i + 1) (by omega)
  have hne : ¬ i = N - 1 := by omega
  have he : i * workLoad L N + workLoad L N = (i + 1) * workLoad L N := by ring
  unfold workerEnd
  rw [if_neg hne, workerStart_small L N i hL (by omega), he]
  unfold SIZE_T_MOD UINT_MOD
  rw [Nat.mod_eq_of_lt (by omega), Nat.mod_eq_of_lt (by omega)]

theorem workerEnd_small_last (L N : Nat) (hL : L < 2 ^ 32) :
    workerEnd L N (N - 1) = L := by
  unfold workerEnd UINT_MOD
  rw [if_pos rfl, Nat.mod_eq_of_lt hL]

/-- Below `2 ^ 32` bytes the ranges of `localHist` tile `[0, L)`: the first
starts at zero, each is well ordered, each ends where the next starts, and
the last ends at `L`. -/
theorem partition_small (L N : Nat) (hL : L < 2 ^ 32) (hN : 1 ≤ N) :
    workerStart L N 0 = 0 ∧
    (∀ i, i < N → workerStart L N i ≤ workerEnd L N i) ∧
    (∀ i, i + 1 < N → workerEnd L N i = workerStart L N (i + 1)) ∧
    workerEnd L N (N - 1) = L := by
  refine ⟨?_, ?_, ?_, workerEnd_small_last L N hL⟩
  · rw [workerStart_small L N 0 hL (by omega)]; simp
  · intro i hi
    rw [workerStart_small L N i hL (by omega)]
    by_cases hlast : i + 1 < N
    · rw [workerEnd_small_inner L N i hL hlast]
      exact Nat.mul_le_mul_right _ (by omega)
    · have : i = N - 1 := by omega
      rw [this, workerEnd_small_last L N hL]
      exact mul_workLoad_le L N (N - 1) (by omega)
  · intro i hi
    rw [workerEnd_small_inner L N i hL hi, workerStart_small L N (i + 1) hL (by omega)]

theorem workerInBounds_small (data : List Int) (N i : Nat)
    (hL : data.length < 2 ^ 32) (hi : i < N) :
    WorkerInBounds data data.length N i := by
  obtain ⟨_, hle, _, hlast⟩ := partition_small data.length N hL (by omega)
  have h1 := hle i hi
  unfold WorkerInBounds
  by_cases hl : i + 1 < N
  · rw [workerEnd_small_inner _ N i hL hl] at h1 ⊢
    have := mul_workLoad_le data.length N (i + 1) (by omega)
    omega
  · have hi1 : i = N - 1 := by omega
    rw [hi1] at h1 ⊢
    rw [hlast] at h1 ⊢
    omega

theorem coveredCount_inner (data : List Int) (N : Nat) (hL : data.length < 2 ^ 32) (v : Nat) :
    ∀ k, k + 1 ≤ N →
      coveredCount data data.length N k v
        = rangeCount data 0 (k * workLoad data.length N) v := by
  intro k
  induction k with
  | zero => intro _; simp [coveredCount, rangeCount_zero]
  | succ k ih =>
    intro hk
    rw [coveredCount, ih (by omega), workerStart_small _ N k hL (by omega),
      workerEnd_small_inner _ N k hL (by omega)]
    have he : (k + 1) * workLoad data.length N - k * workLoad data.length N
        = workLoad data.length N := by
      rw [Nat.add_mul, Nat.one_mul]; omega
    have hs : (k + 1) * workLoad data.length N
        = k * workLoad data.length N + workLoad data.length N := by ring
    rw [he, hs, rangeCount_add, Nat.zero_add]

theorem coveredCount_small (data : List Int) (N : Nat) (hL : data.length < 2 ^ 32)
    (hN : 1 ≤ N) (v : Nat) :
    coveredCount data data.length N N v = exactCount data v := by
  obtain ⟨k, rfl⟩ : ∃ k, N = k + 1 := ⟨N - 1, by omega⟩
  have hlast := workerEnd_small_last data.length (k + 1) hL
  have hle := mul_workLoad_le data.length (k + 1) k (by omega)
  rw [coveredCount, coveredCount_inner data (k + 1) hL v k (le_refl _),
    workerStart_small _ (k + 1) k hL (by omega)]
  simp only [Nat.add_sub_cancel] at hlast
  rw [hlast, ← rangeCount_full]
  have hsplit : data.length
      = k * workLoad data.length (k + 1)
        + (data.length - k * workLoad data.length (k + 1)) := by omega
  conv_rhs => rw [hsplit, rangeCount_add, Nat.zero_add]

/-- Below `2 ^ 32` bytes `localHist` returns the exact histogram. -/
theorem localHist_exact_small (data : List Int) (N : Nat)
    (hL : data.length < 2 ^ 32) (hN : 1 ≤ N) :
    ∃ h, localHist data data.length N = .ok h ∧ h.length = 256 ∧
      ∀ v, h.getD v 0 = exactCount data v := by
  obtain ⟨h, h1, h2, h3⟩ := localHist_counts data data.length N hN
    (fun i hi => workerInBounds_small data N i hL hi)
  exact ⟨h, h1, h2, fun v => by rw [h3 v, coveredCount_small data N hL hN v]⟩


/-! ## The workers of `globalHist` -/

theorem wsum_set (f : PC → Nat) (pc1 : PC) :
    ∀ (ws : List PC) (i : Nat) (pc : PC), ws[i]? = some pc →
      wsum f (ws.set i pc1) + f pc = wsum f ws + f pc1 := by
  intro ws
  induction ws with
  | nil => intro i pc h; simp at h
  | cons w ws ih =>
    intro i pc h
    cases i with
    | zero =>
      simp only [List.getElem?_cons_zero, Option.some.injEq] at h
      subst h
      simp only [wsum, List.set_cons_zero, List.map_cons, List.sum_cons]
      omega
    | succ i =>
      simp only [List.getElem?_cons_succ] at h
      have := ih i pc h
      simp only [wsum, List.set_cons_succ, List.map_cons, List.sum_cons] at this ⊢
      omega

theorem wsum_le_length (f : PC → Nat) (hf : ∀ pc, f pc ≤ 1) (ws : List PC) :
    wsum f ws ≤ ws.length := by
  induction ws with
  | nil => simp [wsum]
  | cons w ws ih =>
    have := hf w
    simp only [wsum, List.map_cons, List.sum_cons, List.length_cons] at ih ⊢
    omega

theorem doneW_le_one (pc : PC) : doneW pc ≤ 1 := by
  cases pc <;> simp [doneW]

theorem wsum_doneW_lt (ws : List PC) (i : Nat) (pc : PC) (h : ws[i]? = some pc)
    (hpc : doneW pc = 0) : wsum doneW ws < ws.length := by
  have h1 := wsum_set doneW .done ws i pc h
  have h2 := wsum_le_length doneW doneW_le_one (ws.set i .done)
  rw [List.length_set] at h2
  have h3 : doneW .done = 1 := rfl
  omega

theorem wsum_replicate_fetch (f : PC → Nat) (hf : f .fetch = 0) (n : Nat) :
    wsum f (List.replicate n .fetch) = 0 := by
  induction n with
  | zero => simp [wsum]
  | succ n ih =>
    simp only [wsum, List.replicate_succ, List.map_cons, List.sum_cons] at ih ⊢
    omega

theorem wsum_allDone (ws : List PC) (h : ws.all (fun pc => pc == .done) = true) :
    wsum doneW ws = ws.length ∧ (∀ v, wsum (pendW v) ws = 0) ∧ wsum stepsLeft ws = 0 := by
  induction ws with
  | nil => simp [wsum]
  | cons w ws ih =>
    simp only [List.all_cons, Bool.and_eq_true, beq_iff_eq] at h
    obtain ⟨h1, h2, h3⟩ := ih h.2
    rw [h.1]
    refine ⟨?_, fun v => ?_, ?_⟩
    · simp only [wsum, List.map_cons, List.sum_cons, List.length_cons, doneW] at h1 ⊢
      omega
    · have := h2 v
      simp only [wsum, List.map_cons, List.sum_cons, pendW] at this ⊢
      omega
    · simp only [wsum, List.map_cons, List.sum_cons, stepsLeft] at h3 ⊢
      omega

theorem toInt32_small (c : Nat) (h : c < 2 ^ 31) : toInt32 c = (c : Int) := by
  unfold toInt32 UINT_MOD INT_LIMIT
  have : c % 2 ^ 32 = c := Nat.mod_eq_of_lt (by omega)
  rw [this, if_pos h]

theorem intToSizeT_small (c : Nat) (h : c < 2 ^ 64) : intToSizeT (c : Int) = c := by
  unfold intToSizeT SIZE_T_MOD
  have : ((c : Int) % ((2 ^ 64 : Nat) : Int)) = (c : Int) := by
    apply Int.emod_eq_of_lt <;> omega
  rw [this]
  simp

theorem readAt_natCast (data : List Int) (c : Nat) : readAt data (c : Int) = data[c]? := by
  unfold readAt
  have : ¬ ((c : Int) < 0) := by omega
  rw [if_neg this]
  simp

theorem rangeCount_one (data : List Int) (j v : Nat) (c : Int) (hc : data[j]? = some c) :
    rangeCount data j 1 v = if toUChar c = v then 1 else 0 := by
  rw [rangeCount_succ data j 0 v c hc, rangeCount_zero, Nat.add_zero]

/-- The program points of the workers after worker `i` moves to `pc1`. -/
theorem pcs_set (s s1 : GState) (i : Nat) (pc1 : PC)
    (hw : s1.workers = s.workers.set i pc1)
    (hpcs : ∀ j pc, s.workers[j]? = some pc → PCOk s j pc)
    (hi : PCOk s1 i pc1)
    (hrest : ∀ j pc, j ≠ i → s.workers[j]? = some pc → PCOk s j pc → PCOk s1 j pc) :
    ∀ j pc, s1.workers[j]? = some pc → PCOk s1 j pc := by
  intro j pc hj
  rw [hw, List.getElem?_set] at hj
  by_cases hij : i = j
  · subst hij
    rw [if_pos rfl] at hj
    split at hj
    · cases hj; exact hi
    · cases hj
  · rw [if_neg hij] at hj
    exact hrest j pc (fun e => hij e.symm) hj (hpcs j pc hj)

theorem PCOk_congr (s s1 : GState) (j : Nat) (pc : PC)
    (hm : s1.histoMutex = s.histoMutex) (hh : s1.GlobalHist = s.GlobalHist)
    (h : PCOk s j pc) : PCOk s1 j pc := by
  cases pc <;> simp only [PCOk, hm, hh] at h ⊢ <;> exact h

/-- The step at `fetch` (lines 62-70) keeps the invariant and uses up some
of the measure. -/
theorem ginv_fetch (data : List Int) (L c0 M N : Nat) (s s1 : GState) (i : Nat)
    (W : ClaimWindow data L c0 M N) (I : GInv data c0 M N s)
    (hpc : s.workers[i]? = some .fetch) (h : gstep data L s i = some s1) :
    GInv data c0 M N s1 ∧ gmeasure c0 M N s1 < gmeasure c0 M N s := by
  have hd := wsum_doneW_lt s.workers i .fetch hpc rfl
  have hdones := I.dones
  have hN := I.nWorkers
  have hlo := I.lo
  have hlt : s.globalIndex < c0 + M + N := by omega
  have hwrap := W.noWrap
  have hmod : (s.globalIndex + 1) % SIZE_T_MOD = s.globalIndex + 1 :=
    Nat.mod_eq_of_lt (by unfold SIZE_T_MOD; omega)
  have hsteps := wsum_set stepsLeft
  have hdn := wsum_set doneW
  by_cases hv : s.globalIndex < c0 + M
  · have hM : 0 < M := by omega
    have hfits := W.fits hM
    have hidx : toInt32 s.globalIndex = (s.globalIndex : Int) :=
      toInt32_small _ (by omega)
    have hsz : intToSizeT (s.globalIndex : Int) = s.globalIndex :=
      intToSizeT_small _ (by omega)
    have hnot : ¬ L ≤ s.globalIndex := by have := W.below hM; omega
    have hin : s.globalIndex < data.length := by have := W.inData hM; omega
    have hrd : data[s.globalIndex]? = some data[s.globalIndex] :=
      List.getElem?_eq_getElem hin
    simp only [gstep, hpc, hidx, hsz, hnot, if_false, readAt_natCast, hrd, hmod] at h
    cases h
    have hs := hsteps (.lock (toUChar data[s.globalIndex])) s.workers i .fetch hpc
    have hd1 := hdn (.lock (toUChar data[s.globalIndex])) s.workers i .fetch hpc
    simp only [stepsLeft, doneW] at hs hd1
    refine ⟨⟨?_, I.nBins, ?_, ?_, ?_, ?_, ?_, I.owner⟩, ?_⟩
    · simp only [GState.goto, List.length_set]; exact hN
    · simp only [GState.goto]; omega
    · simp only [GState.goto]; omega
    · simp only [GState.goto]; omega
    · intro v
      have hb := I.bins v
      have hp := wsum_set (pendW v) (.lock (toUChar data[s.globalIndex])) s.workers i .fetch hpc
      have h1 := rangeCount_add data c0 (s.globalIndex - c0) 1 v
      have h2 := rangeCount_one data s.globalIndex v _ hrd
      have e1 : min (s.globalIndex + 1) (c0 + M) - c0 = s.globalIndex - c0 + 1 := by omega
      have e2 : min s.globalIndex (c0 + M) - c0 = s.globalIndex - c0 := by omega
      have e3 : c0 + (s.globalIndex - c0) = s.globalIndex := by omega
      rw [e2] at hb
      rw [e3, h2] at h1
      simp only [pendW] at hp
      simp only [GState.goto]
      rw [e1, h1]
      omega
    · refine pcs_set s _ i _ rfl I.pcs ?_ ?_
      · have := I.pcs i .fetch hpc
        simp only [PCOk] at this ⊢
        exact ⟨toUChar_lt _, this⟩
      · intro j pc _ _ hok
        exact PCOk_congr s _ j pc rfl rfl hok
    · simp only [gmeasure, GState.goto]; omega
  · have hstop := W.stops s.globalIndex (by omega) hlt
    simp only [gstep, hpc, hstop, if_true, hmod] at h
    cases h
    have hs := hsteps .done s.workers i .fetch hpc
    have hd1 := hdn .done s.workers i .fetch hpc
    simp only [stepsLeft, doneW] at hs hd1
    refine ⟨⟨?_, I.nBins, ?_, ?_, ?_, ?_, ?_, I.owner⟩, ?_⟩
    · simp only [GState.goto, List.length_set]; exact hN
    · simp only [GState.goto]; omega
    · simp only [GState.goto]; omega
    · simp only [GState.goto]; omega
    · intro v
      have hb := I.bins v
      have hp := wsum_set (pendW v) .done s.workers i .fetch hpc
      have e1 : min (s.globalIndex + 1) (c0 + M) = min s.globalIndex (c0 + M) := by omega
      simp only [pendW] at hp
      simp only [GState.goto]
      rw [e1]
      omega
    · refine pcs_set s _ i _ rfl I.pcs ?_ ?_
      · have := I.pcs i .fetch hpc
        simp only [PCOk] at this ⊢
        exact this
      · intro j pc _ _ hok
        exact PCOk_congr s _ j pc rfl rfl hok
    · simp only [gmeasure, GState.goto]; omega

/-- A worker other than the one that takes the free mutex is not disturbed. -/
theorem PCOk_acquire (s s1 : GState) (i j : Nat) (pc : PC)
    (hm : s.histoMutex = none) (hm1 : s1.histoMutex = some i) (hji : j ≠ i)
    (h : PCOk s j pc) : PCOk s1 j pc := by
  have hne : some i ≠ some j := fun e => hji (Option.some.inj e).symm
  cases pc with
  | fetch => simp only [PCOk, hm1]; exact hne
  | lock b => simp only [PCOk, hm1] at h ⊢; exact ⟨h.1, hne⟩
  | load b => simp only [PCOk, hm] at h; cases h.2
  | store b t => simp only [PCOk, hm] at h; cases h.2.1
  | unlock => simp only [PCOk, hm] at h; cases h
  | done => simp only [PCOk, hm1]; exact hne
  | fault f => exact h.elim

/-- While worker `i` owns the mutex no other worker is between `lock` and
`unlock`, so a step of `i` that keeps or frees the mutex does not disturb it. -/
theorem PCOk_held (s s1 : GState) (i j : Nat) (pc : PC)
    (hm : s.histoMutex = some i) (hm1 : s1.histoMutex = some i ∨ s1.histoMutex = none)
    (hji : j ≠ i) (h : PCOk s j pc) : PCOk s1 j pc := by
  have hne : s1.histoMutex ≠ some j := by
    rcases hm1 with e | e
    · rw [e]; exact fun e1 => hji (Option.some.inj e1).symm
    · rw [e]; exact fun e1 => by cases e1
  have hcontra : s.histoMutex = some j → False := by
    intro e
    rw [hm] at e
    exact hji (Option.some.inj e).symm
  cases pc with
  | fetch => exact hne
  | lock b => exact ⟨h.1, hne⟩
  | load b => exact (hcontra h.2).elim
  | store b t => exact (hcontra h.2.1).elim
  | unlock => exact (hcontra h).elim
  | done => exact hne
  | fault f => exact h.elim

/-- The step at `lock` (line 73). -/
theorem ginv_lock (data : List Int) (L c0 M N : Nat) (s s1 : GState) (i b : Nat)
    (I : GInv data c0 M N s)
    (hpc : s.workers[i]? = some (.lock b)) (h : gstep data L s i = some s1) :
    GInv data c0 M N s1 ∧ gmeasure c0 M N s1 < gmeasure c0 M N s := by
  have hiN : i < N := by
    rw [← I.nWorkers]
    exact (List.getElem?_eq_some.mp hpc).1
  cases hm : s.histoMutex with
  | some o => simp only [gstep, hpc, hm] at h; cases h
  | none =>
    simp only [gstep, hpc, hm] at h
    cases h
    have hs := wsum_set stepsLeft (.load b) s.workers i _ hpc
    have hd1 := wsum_set doneW (.load b) s.workers i _ hpc
    simp only [stepsLeft, doneW] at hs hd1
    have hdones := I.dones
    refine ⟨⟨?_, I.nBins, I.lo, I.hi, ?_, ?_, ?_, ?_⟩, ?_⟩
    · simp only [GState.goto, List.length_set]; exact I.nWorkers
    · simp only [GState.goto]; omega
    · intro v
      have hb := I.bins v
      have hp := wsum_set (pendW v) (.load b) s.workers i _ hpc
      simp only [pendW] at hp
      simp only [GState.goto]
      omega
    · refine pcs_set s _ i _ rfl I.pcs ?_ ?_
      · have := I.pcs i _ hpc
        simp only [PCOk] at this ⊢
        exact ⟨this.1, rfl⟩
      · intro j pc hji _ hok
        exact PCOk_acquire s _ i j pc hm rfl hji hok
    · intro j hj
      simp only [GState.goto, Option.some.injEq] at hj
      omega
    · simp only [gmeasure, GState.goto]; omega

/-- The step at `load`, the read of `GlobalHist[currData]++` (line 74). -/
theorem ginv_load (data : List Int) (L c0 M N : Nat) (s s1 : GState) (i b : Nat)
    (I : GInv data c0 M N s)
    (hpc : s.workers[i]? = some (.load b)) (h : gstep data L s i = some s1) :
    GInv data c0 M N s1 ∧ gmeasure c0 M N s1 < gmeasure c0 M N s := by
  have hok := I.pcs i _ hpc
  simp only [PCOk] at hok
  have hb : b < s.GlobalHist.length := by rw [I.nBins]; exact hok.1
  simp only [gstep, hpc, hb, if_true] at h
  cases h
  have hs := wsum_set stepsLeft (.store b (s.GlobalHist.getD b 0)) s.workers i _ hpc
  have hd1 := wsum_set doneW (.store b (s.GlobalHist.getD b 0)) s.workers i _ hpc
  simp only [stepsLeft, doneW] at hs hd1
  have hdones := I.dones
  refine ⟨⟨?_, I.nBins, I.lo, I.hi, ?_, ?_, ?_, I.owner⟩, ?_⟩
  · simp only [GState.goto, List.length_set]; exact I.nWorkers
  · simp only [GState.goto]; omega
  · intro v
    have hbv := I.bins v
    have hp := wsum_set (pendW v) (.store b (s.GlobalHist.getD b 0)) s.workers i _ hpc
    simp only [pendW] at hp
    simp only [GState.goto]
    omega
  · refine pcs_set s _ i _ rfl I.pcs ?_ ?_
    · simp only [PCOk, GState.goto]
      exact ⟨hok.1, hok.2, trivial⟩
    · intro j pc _ _ hokj
      exact PCOk_congr s _ j pc rfl rfl hokj
  · simp only [gmeasure, GState.goto]; omega

/-- The step at `store`, the write of `GlobalHist[currData]++` (line 74). -/
theorem ginv_store (data : List Int) (L c0 M N : Nat) (s s1 : GState) (i b t : Nat)
    (I : GInv data c0 M N s)
    (hpc : s.workers[i]? = some (.store b t)) (h : gstep data L s i = some s1) :
    GInv data c0 M N s1 ∧ gmeasure c0 M N s1 < gmeasure c0 M N s := by
  have hok := I.pcs i _ hpc
  simp only [PCOk] at hok
  obtain ⟨hb, hm, ht⟩ := hok
  have hbl : b < s.GlobalHist.length := by rw [I.nBins]; exact hb
  simp only [gstep, hpc] at h
  cases h
  have hs := wsum_set stepsLeft .unlock s.workers i _ hpc
  have hd1 := wsum_set doneW .unlock s.workers i _ hpc
  simp only [stepsLeft, doneW] at hs hd1
  have hdones := I.dones
  refine ⟨⟨?_, ?_, I.lo, I.hi, ?_, ?_, ?_, I.owner⟩, ?_⟩
  · simp only [GState.goto, List.length_set]; exact I.nWorkers
  · simp only [GState.goto, List.length_set]; exact I.nBins
  · simp only [GState.goto]; omega
  · intro v
    have hbv := I.bins v
    have hp := wsum_set (pendW v) .unlock s.workers i _ hpc
    simp only [pendW] at hp
    simp only [GState.goto]
    rw [getD_set_bin _ _ _ v hbl]
    by_cases hvb : v = b
    · subst hvb
      simp only [if_true] at hp ⊢
      omega
    · have hne : ¬ b = v := fun e => hvb e.symm
      simp only [hvb, hne, if_false] at hp ⊢
      omega
  · refine pcs_set s _ i _ rfl I.pcs ?_ ?_
    · simp only [PCOk, GState.goto]
      exact hm
    · intro j pc hji _ hokj
      exact PCOk_held s _ i j pc hm (Or.inl hm) hji hokj
  · simp only [gmeasure, GState.goto]; omega

/-- The step at `unlock` (line 75). -/
theorem ginv_unlock (data : List Int) (L c0 M N : Nat) (s s1 : GState) (i : Nat)
    (I : GInv data c0 M N s)
    (hpc : s.workers[i]? = some .unlock) (h : gstep data L s i = some s1) :
    GInv data c0 M N s1 ∧ gmeasure c0 M N s1 < gmeasure c0 M N s := by
  have hm := I.pcs i _ hpc
  simp only [PCOk] at hm
  simp only [gstep, hpc] at h
  cases h
  have hs := wsum_set stepsLeft .fetch s.workers i _ hpc
  have hd1 := wsum_set doneW .fetch s.workers i _ hpc
  simp only [stepsLeft, doneW] at hs hd1
  have hdones := I.dones
  refine ⟨⟨?_, I.nBins, I.lo, I.hi, ?_, ?_, ?_, ?_⟩, ?_⟩
  · simp only [GState.goto, List.length_set]; exact I.nWorkers
  · simp only [GState.goto]; omega
  · intro v
    have hbv := I.bins v
    have hp := wsum_set (pendW v) .fetch s.workers i _ hpc
    simp only [pendW] at hp
    simp only [GState.goto]
    omega
  · refine pcs_set s _ i _ rfl I.pcs ?_ ?_
    · simp only [PCOk, GState.goto]
      exact fun e => by cases e
    · intro j pc hji _ hokj
      exact PCOk_held s _ i j pc hm (Or.inr rfl) hji hokj
  · intro j hj
    simp only [GState.goto] at hj
    cases hj
  · simp only [gmeasure, GState.goto]; omega

/-- Every step of a worker keeps the invariant and uses up some of the
measure. -/
theorem ginv_step (data : List Int) (L c0 M N : Nat) (s s1 : GState) (i : Nat)
    (W : ClaimWindow data L c0 M N) (I : GInv data c0 M N s)
    (h : gstep data L s i = some s1) :
    GInv data c0 M N s1 ∧ gmeasure c0 M N s1 < gmeasure c0 M N s := by
  cases hpc : s.workers[i]? with
  | none => simp only [gstep, hpc] at h; cases h
  | some pc =>
    cases pc with
    | fetch => exact ginv_fetch data L c0 M N s s1 i W I hpc h
    | lock b => exact ginv_lock data L c0 M N s s1 i b I hpc h
    | load b => exact ginv_load data L c0 M N s s1 i b I hpc h
    | store b t => exact ginv_store data L c0 M N s s1 i b t I hpc h
    | unlock => exact ginv_unlock data L c0 M N s s1 i I hpc h
    | done => simp only [gstep, hpc] at h; cases h
    | fault f => simp only [gstep, hpc] at h; cases h

/-- The invariant holds along every schedule, and a schedule is no longer
than the measure of the state it starts from. -/
theorem ginv_run (data : List Int) (L c0 M N : Nat) (W : ClaimWindow data L c0 M N) :
    ∀ (sched : List Nat) (s s1 : GState), GInv data c0 M N s →
      grun data L s sched = some s1 →
      GInv data c0 M N s1 ∧ gmeasure c0 M N s1 + sched.length ≤ gmeasure c0 M N s := by
  intro sched
  induction sched with
  | nil =>
    intro s s1 I h
    simp only [grun, Option.some.injEq] at h
    subst h
    exact ⟨I, by simp⟩
  | cons i rest ih =>
    intro s s1 I h
    cases hstep : gstep data L s i with
    | none => simp only [grun, hstep] at h; cases h
    | some s2 =>
      simp only [grun, hstep] at h
      obtain ⟨I2, hm2⟩ := ginv_step data L c0 M N s s2 i W I hstep
      obtain ⟨I1, hm1⟩ := ih s2 s1 I2 h
      refine ⟨I1, ?_⟩
      simp only [List.length_cons]
      omega

theorem ginv_init (data : List Int) (c0 M N : Nat) :
    GInv data c0 M N (ginit c0 N) := by
  refine ⟨?_, length_zeroHist, le_refl _, ?_, ?_, ?_, ?_, ?_⟩
  · simp [ginit]
  · simp only [ginit]; omega
  · simp only [ginit]
    rw [wsum_replicate_fetch doneW rfl]
    omega
  · intro v
    simp only [ginit]
    rw [wsum_replicate_fetch (pendW v) rfl, getD_zeroHist]
    have : min c0 (c0 + M) - c0 = 0 := by omega
    rw [this, rangeCount_zero]
  · intro j pc hj
    simp only [ginit, List.getElem?_replicate] at hj
    split at hj
    · cases hj
      simp only [PCOk, ginit]
      exact fun e => by cases e
    · cases hj
  · intro j hj
    simp only [ginit] at hj
    cases hj

theorem gmeasure_init (c0 M N : Nat) : gmeasure c0 M N (ginit c0 N) = 5 * (M + N) := by
  simp only [gmeasure, ginit]
  rw [wsum_replicate_fetch stepsLeft rfl]
  omega

theorem grun_append (data : List Int) (L : Nat) :
    ∀ (a b : List Nat) (s s1 : GState), grun data L s a = some s1 →
      grun data L s (a ++ b) = grun data L s1 b := by
  intro a
  induction a with
  | nil =>
    intro b s s1 h
    simp only [grun, Option.some.injEq] at h
    subst h
    rfl
  | cons i rest ih =>
    intro b s s1 h
    cases hstep : gstep data L s i with
    | none => simp only [grun, hstep] at h; cases h
    | some s2 =>
      simp only [grun, hstep, List.cons_append] at h ⊢
      exact ih b s2 s1 h

theorem exists_not_done (ws : List PC) (h : ws.all (fun pc => pc == .done) = false) :
    ∃ (i : Nat) (pc : PC), ws[i]? = some pc ∧ pc ≠ PC.done := by
  induction ws with
  | nil => simp at h
  | cons w ws ih =>
    by_cases hw : w = .done
    · have hrest : ws.all (fun pc => pc == .done) = false := by
        simp only [List.all_cons, hw, beq_self_eq_true, Bool.true_and] at h
        exact h
      obtain ⟨i, pc, h1, h2⟩ := ih hrest
      exact ⟨i + 1, pc, by rw [List.getElem?_cons_succ]; exact h1, h2⟩
    · exact ⟨0, w, List.getElem?_cons_zero, hw⟩

/-- Progress: while a worker is still in its loop, some worker can step. -/
theorem ginv_progress (data : List Int) (L c0 M N : Nat) (s : GState)
    (I : GInv data c0 M N s) (h : allDone s = false) :
    ∃ i s1, gstep data L s i = some s1 := by
  cases hm : s.histoMutex with
  | some o =>
    have hoN : o < s.workers.length := by rw [I.nWorkers]; exact I.owner o hm
    have hpc : s.workers[o]? = some s.workers[o] := List.getElem?_eq_getElem hoN
    have hok := I.pcs o _ hpc
    refine ⟨o, ?_⟩
    cases hw : s.workers[o] with
    | fetch => rw [hw] at hok; exact (hok hm).elim
    | lock b => rw [hw] at hok; exact (hok.2 hm).elim
    | load b =>
      rw [hw] at hpc
      by_cases hb : b < s.GlobalHist.length
      · simp only [gstep, hpc, hb, if_true, Option.some.injEq, exists_eq']
      · simp only [gstep, hpc, hb, if_false, Option.some.injEq, exists_eq']
    | store b t => rw [hw] at hpc; simp only [gstep, hpc, Option.some.injEq, exists_eq']
    | unlock => rw [hw] at hpc; simp only [gstep, hpc, Option.some.injEq, exists_eq']
    | done => rw [hw] at hok; exact (hok hm).elim
    | fault f => rw [hw] at hok; exact hok.elim
  | none =>
    obtain ⟨i, pc, hpc, hnd⟩ := exists_not_done s.workers h
    have hok := I.pcs i pc hpc
    refine ⟨i, ?_⟩
    cases pc with
    | fetch =>
      by_cases hc : L ≤ intToSizeT (toInt32 s.globalIndex)
      · simp only [gstep, hpc, hc, if_true, Option.some.injEq, exists_eq']
      · cases hr : readAt data (toInt32 s.globalIndex) with
        | none => simp only [gstep, hpc, hc, if_false, hr, Option.some.injEq, exists_eq']
        | some c => simp only [gstep, hpc, hc, if_false, hr, Option.some.injEq, exists_eq']
    | lock b => simp only [gstep, hpc, hm, Option.some.injEq, exists_eq']
    | load b => simp only [PCOk, hm] at hok; cases hok.2
    | store b t => simp only [PCOk, hm] at hok; cases hok.2.1
    | unlock => simp only [PCOk, hm] at hok; cases hok
    | done => exact (hnd rfl).elim
    | fault f => exact hok.elim

/-- From every state of a call some schedule lets all workers finish. -/
theorem ginv_terminates (data : List Int) (L c0 M N : Nat) (W : ClaimWindow data L c0 M N) :
    ∀ (n : Nat) (s : GState), gmeasure c0 M N s ≤ n → GInv data c0 M N s →
      ∃ sched s1, grun data L s sched = some s1 ∧ allDone s1 = true := by
  intro n
  induction n with
  | zero =>
    intro s hn I
    cases hd : allDone s with
    | true => exact ⟨[], s, rfl, hd⟩
    | false =>
      obtain ⟨i, s1, hstep⟩ := ginv_progress data L c0 M N s I hd
      have := (ginv_step data L c0 M N s s1 i W I hstep).2
      omega
  | succ n ih =>
    intro s hn I
    cases hd : allDone s with
    | true => exact ⟨[], s, rfl, hd⟩
    | false =>
      obtain ⟨i, s1, hstep⟩ := ginv_progress data L c0 M N s I hd
      obtain ⟨I1, hlt⟩ := ginv_step data L c0 M N s s1 i W I hstep
      obtain ⟨sched, s2, hrun, hdone⟩ := ih s1 (by omega) I1
      exact ⟨i :: sched, s2, by simp only [grun, hstep]; exact hrun, hdone⟩

/-- When all workers have finished, the bins hold the counts of the window
and the cursor stands `N` past its end. -/
theorem ginv_final (data : List Int) (c0 M N : Nat) (s : GState)
    (hN : 1 ≤ N) (I : GInv data c0 M N s) (h : allDone s = true) :
    s.globalIndex = c0 + M + N ∧ s.GlobalHist.length = 256 ∧
      ∀ v, s.GlobalHist.getD v 0 = rangeCount data c0 M v := by
  obtain ⟨h1, h2, _⟩ := wsum_allDone s.workers h
  have hd := I.dones
  have hn := I.nWorkers
  have hhi := I.hi
  have hgi : s.globalIndex = c0 + M + N := by omega
  refine ⟨hgi, I.nBins, fun v => ?_⟩
  have hb := I.bins v
  rw [h2 v, hgi] at hb
  have : min (c0 + M + N) (c0 + M) - c0 = M := by omega
  rw [this] at hb
  omega

/-! ## Calls of `globalHist` -/

theorem toInt32_high (c : Nat) (h1 : 2 ^ 31 ≤ c) (h2 : c < 2 ^ 32) :
    toInt32 c = (c : Int) - 2 ^ 32 := by
  unfold toInt32 UINT_MOD INT_LIMIT
  have hm : c % 2 ^ 32 = c := Nat.mod_eq_of_lt h2
  have hn : ¬ c < 2 ^ 31 := by omega
  rw [hm, if_neg hn]
  norm_num

theorem intToSizeT_high (c : Nat) (h1 : 2 ^ 31 ≤ c) (h2 : c < 2 ^ 32) :
    intToSizeT ((c : Int) - 2 ^ 32) = 2 ^ 64 - 2 ^ 32 + c := by
  unfold intToSizeT SIZE_T_MOD
  push_cast
  omega

/-- The window of a call entered with the cursor at zero: the offsets below
`min L (2 ^ 31)` are claimed, every later cursor value stops a worker. -/
theorem claimWindow_zero (data : List Int) (N : Nat)
    (hL : data.length ≤ 2 ^ 64 - 2 ^ 31) (hN : N ≤ 2 ^ 31) :
    ClaimWindow data data.length 0 (min data.length (2 ^ 31)) N := by
  refine ⟨fun _ => by omega, fun _ => by omega, fun _ => by omega, ?_, by omega⟩
  intro c h1 h2
  by_cases hc : c < 2 ^ 31
  · rw [toInt32_small c hc, intToSizeT_small c (by omega)]
    omega
  · rw [toInt32_high c (by omega) (by omega), intToSizeT_high c (by omega) (by omega)]
    omega

/-- The window of a call entered with the cursor already past the buffer:
nothing is claimed. -/
theorem claimWindow_past (data : List Int) (c0 N : Nat)
    (h0 : data.length ≤ c0) (hN : c0 + N ≤ 2 ^ 31) :
    ClaimWindow data data.length c0 0 N := by
  refine ⟨fun h => by omega, fun h => by omega, fun h => by omega, ?_, by omega⟩
  intro c h1 h2
  rw [toInt32_small c (by omega), intToSizeT_small c (by omega)]
  omega

/-- A call of `globalHist` over a claim window: some schedule ends it, no
schedule is longer than `5 * (M + N)` steps, a state with a worker still in
its loop always has a next step, and every end leaves the counts of the
window in the bins and the cursor `N` past the window. -/
theorem globalHist_window (data : List Int) (L c0 M N : Nat)
    (W : ClaimWindow data L c0 M N) (hN : 1 ≤ N) :
    (∃ h c, globalHist data L N c0 h c) ∧
    (∀ sched s, grun data L (ginit c0 N) sched = some s →
      sched.length ≤ 5 * (M + N) ∧
      (allDone s = false → ∃ i s1, gstep data L s i = some s1)) ∧
    (∀ h c, globalHist data L N c0 h c →
      c = c0 + M + N ∧ h.length = 256 ∧ ∀ v, h.getD v 0 = rangeCount data c0 M v) := by
  have I0 := ginv_init data c0 M N
  refine ⟨?_, ?_, ?_⟩
  · obtain ⟨sched, s, hrun, hdone⟩ := ginv_terminates data L c0 M N W _ _ (le_refl _) I0
    exact ⟨s.GlobalHist, s.globalIndex, sched, s, hrun, hdone, rfl, rfl⟩
  · intro sched s hrun
    obtain ⟨I, hm⟩ := ginv_run data L c0 M N W sched _ s I0 hrun
    rw [gmeasure_init] at hm
    exact ⟨by omega, fun hd => ginv_progress data L c0 M N s I hd⟩
  · rintro h c ⟨sched, s, hrun, hdone, rfl, rfl⟩
    obtain ⟨I, _⟩ := ginv_run data L c0 M N W sched _ s I0 hrun
    exact ginv_final data c0 M N s hN I hdone

/-- Entered with the cursor at zero, `globalHist` counts exactly the first
`min L (2 ^ 31)` bytes of the buffer. -/
theorem globalHist_from_zero (data : List Int) (N : Nat)
    (hL : data.length ≤ 2 ^ 64 - 2 ^ 31) (hN1 : 1 ≤ N) (hN : N ≤ 2 ^ 31) :
    (∃ h c, globalHist data data.length N 0 h c) ∧
    (∀ h c, globalHist data data.length N 0 h c →
      c = min data.length (2 ^ 31) + N ∧ h.length = 256 ∧
      ∀ v, h.getD v 0 = rangeCount data 0 (min data.length (2 ^ 31)) v) := by
  obtain ⟨h1, _, h3⟩ := globalHist_window data data.length 0 _ N
    (claimWindow_zero data N hL hN) hN1
  refine ⟨h1, fun h c he => ?_⟩
  obtain ⟨e1, e2, e3⟩ := h3 h c he
  exact ⟨by omega, e2, e3⟩

/-- Up to `2 ^ 31` bytes, and entered with the cursor at zero, `globalHist`
returns the exact histogram under every schedule. -/
theorem globalHist_exact_small (data : List Int) (N : Nat)
    (hL : data.length ≤ 2 ^ 31) (hN1 : 1 ≤ N) (hN : N ≤ 2 ^ 31) :
    (∃ h c, globalHist data data.length N 0 h c) ∧
    (∀ h c, globalHist data data.length N 0 h c →
      c = data.length + N ∧ h.length = 256 ∧ ∀ v, h.getD v 0 = exactCount data v) := by
  obtain ⟨h1, h2⟩ := globalHist_from_zero data N (by omega) hN1 hN
  refine ⟨h1, fun h c he => ?_⟩
  obtain ⟨e1, e2, e3⟩ := h2 h c he
  have hm : min data.length (2 ^ 31) = data.length := by omega
  rw [hm] at e1 e3
  exact ⟨e1, e2, fun v => by rw [e3 v, rangeCount_full]⟩

theorem hist_ext (h1 h2 : Hist) (l1 : h1.length = 256) (l2 : h2.length = 256)
    (hb : ∀ v, v < 256 → h1.getD v 0 = h2.getD v 0) : h1 = h2 := by
  apply List.ext_getElem (by rw [l1, l2])
  intro n hn1 hn2
  have := hb n (by omega)
  rw [List.getD_eq_getElem?_getD, List.getD_eq_getElem?_getD,
    List.getElem?_eq_getElem hn1, List.getElem?_eq_getElem hn2] at this
  exact this

/-! ## Sums of bins -/

theorem sum_eq_sum_getD : ∀ (h : Hist) (n : Nat), h.length = n →
    binSum h = ∑ v in Finset.range n, h.getD v 0 := by
  intro h
  induction h with
  | nil => intro n hn; simp at hn; subst hn; simp [binSum]
  | cons x xs ih =>
    intro n hn
    obtain ⟨m, rfl⟩ : ∃ m, n = m + 1 := ⟨xs.length, by simpa using hn.symm⟩
    have hxs : xs.length = m := by simpa using hn
    have := ih m hxs
    rw [Finset.sum_range_succ']
    simp only [binSum, List.sum_cons, List.getD_cons_succ, List.getD_cons_zero] at this ⊢
    omega

theorem sum_countP_toUChar (l : List Int) :
    ∑ v in Finset.range 256, l.countP (fun c => toUChar c == v) = l.length := by
  induction l with
  | nil => simp
  | cons c cs ih =>
    simp only [List.countP_cons, Finset.sum_add_distrib, ih, List.length_cons, beq_iff_eq]
    rw [Finset.sum_ite_eq]
    simp [toUChar_lt c]

theorem sum_rangeCount (data : List Int) (a n : Nat) :
    ∑ v in Finset.range 256, rangeCount data a n v = min n (data.length - a) := by
  unfold rangeCount
  rw [sum_countP_toUChar]
  simp

theorem sum_exactCount (data : List Int) :
    ∑ v in Finset.range 256, exactCount data v = data.length := by
  have := sum_rangeCount data 0 data.length
  simp only [rangeCount_full] at this
  rw [this]
  simp

/-- The bins of a histogram that holds the counts of a window add up to the
length of the window. -/
theorem binSum_of_rangeCount (data : List Int) (h : Hist) (a n : Nat)
    (hl : h.length = 256) (hb : ∀ v, h.getD v 0 = rangeCount data a n v) :
    binSum h = min n (data.length - a) := by
  rw [sum_eq_sum_getD h 256 hl, ← sum_rangeCount data a n]
  exact Finset.sum_congr rfl (fun v _ => hb v)

theorem binSum_of_exactCount (data : List Int) (h : Hist)
    (hl : h.length = 256) (hb : ∀ v, h.getD v 0 = exactCount data v) :
    binSum h = data.length := by
  rw [sum_eq_sum_getD h 256 hl, ← sum_exactCount data]
  exact Finset.sum_congr rfl (fun v _ => hb v)

/-! ## Bin accesses stay inside the 256 bins -/

theorem countFrom_error (data : List Int) :
    ∀ (n j : Nat) (h : Hist) (e : Fault), h.length = 256 →
      countFrom data n j h = .error e → e = .oobRead := by
  intro n
  induction n with
  | zero => intro j h e _ he; simp only [countFrom] at he; cases he
  | succ n ih =>
    intro j h e hlen he
    cases hc : data[j]? with
    | none => simp only [countFrom, hc] at he; cases he; rfl
    | some c =>
      have hb : toUChar c < h.length := by rw [hlen]; exact toUChar_lt c
      simp only [countFrom, hc, incrBin_eq h _ hb] at he
      exact ih (j + 1) _ e (by rw [List.length_set]; exact hlen) he

theorem localHistos_error (data : List Int) (L N : Nat) :
    ∀ (k : Nat) (e : Fault), localHistos data L N k = .error e → e = .oobRead := by
  intro k
  induction k with
  | zero => intro e he; simp only [localHistos] at he; cases he
  | succ k ih =>
    intro e he
    cases h1 : localHistos data L N k with
    | error e1 =>
      simp only [localHistos, h1] at he
      cases he
      exact ih e h1
    | ok hs =>
      cases h2 : localWorker data L N k with
      | error e2 =>
        simp only [localHistos, h1, h2] at he
        cases he
        exact countFrom_error data _ _ zeroHist e length_zeroHist h2
      | ok h => simp only [localHistos, h1, h2] at he; cases he

/-- No run of `localHist` touches a bin outside the 256. -/
theorem localHist_no_oobBin (data : List Int) (L N : Nat) :
    localHist data L N ≠ .error .oobBin := by
  intro he
  by_cases hN : N = 0
  · simp only [localHist, hN, if_true] at he
    cases he
  · cases h1 : localHistos data L N N with
    | error e1 =>
      simp only [localHist, hN, if_false, h1] at he
      cases he
      have := localHistos_error data L N N _ h1
      cases this
    | ok hs => simp only [localHist, hN, if_false, h1] at he; cases he

theorem binOk_set (ws : List PC) (i : Nat) (pc1 : PC)
    (h : ∀ pc ∈ ws, BinOk pc) (h1 : BinOk pc1) : ∀ pc ∈ ws.set i pc1, BinOk pc := by
  intro pc hpc
  rcases List.mem_or_eq_of_mem_set hpc with hm | he
  · exact h pc hm
  · rw [he]; exact h1

theorem binOk_step (data : List Int) (L : Nat) (s s1 : GState) (i : Nat)
    (hl : s.GlobalHist.length = 256) (hw : ∀ pc ∈ s.workers, BinOk pc)
    (h : gstep data L s i = some s1) :
    s1.GlobalHist.length = 256 ∧ ∀ pc ∈ s1.workers, BinOk pc := by
  cases hpc : s.workers[i]? with
  | none => simp only [gstep, hpc] at h; cases h
  | some pc =>
    have hmem : pc ∈ s.workers := List.getElem?_mem hpc
    have hok := hw pc hmem
    cases pc with
    | fetch =>
      simp only [gstep, hpc] at h
      split at h
      · cases h
        exact ⟨hl, binOk_set _ _ _ hw trivial⟩
      · split at h
        · cases h
          exact ⟨hl, binOk_set _ _ _ hw rfl⟩
        · cases h
          exact ⟨hl, binOk_set _ _ _ hw (toUChar_lt _)⟩
    | lock b =>
      simp only [gstep, hpc] at h
      split at h
      · cases h
      · cases h
        exact ⟨hl, binOk_set _ _ _ hw hok⟩
    | load b =>
      have hb : b < s.GlobalHist.length := by rw [hl]; exact hok
      simp only [gstep, hpc, hb, if_true] at h
      cases h
      exact ⟨hl, binOk_set _ _ _ hw hok⟩
    | store b t =>
      simp only [gstep, hpc] at h
      cases h
      exact ⟨by simp only [GState.goto, List.length_set]; exact hl, binOk_set _ _ _ hw trivial⟩
    | unlock =>
      simp only [gstep, hpc] at h
      cases h
      exact ⟨hl, binOk_set _ _ _ hw trivial⟩
    | done => simp only [gstep, hpc] at h; cases h
    | fault f => simp only [gstep, hpc] at h; cases h

theorem binOk_run (data : List Int) (L : Nat) :
    ∀ (sched : List Nat) (s s1 : GState), s.GlobalHist.length = 256 →
      (∀ pc ∈ s.workers, BinOk pc) → grun data L s sched = some s1 →
      s1.GlobalHist.length = 256 ∧ ∀ pc ∈ s1.workers, BinOk pc := by
  intro sched
  induction sched with
  | nil =>
    intro s s1 hl hw h
    simp only [grun, Option.some.injEq] at h
    subst h
    exact ⟨hl, hw⟩
  | cons i rest ih =>
    intro s s1 hl hw h
    cases hstep : gstep data L s i with
    | none => simp only [grun, hstep] at h; cases h
    | some s2 =>
      simp only [grun, hstep] at h
      obtain ⟨hl2, hw2⟩ := binOk_step data L s s2 i hl hw hstep
      exact ih s2 s1 hl2 hw2 h

/-- No state of a call of `globalHist` has a worker that touched a bin
outside the 256, whatever the buffer, the length and the cursor. -/
theorem globalHist_no_oobBin (data : List Int) (L c0 N : Nat) (sched : List Nat)
    (s : GState) (h : grun data L (ginit c0 N) sched = some s) :
    s.GlobalHist.length = 256 ∧ ∀ pc ∈ s.workers, pc ≠ PC.fault .oobBin := by
  have h0 : ∀ pc ∈ (ginit c0 N).workers, BinOk pc := by
    intro pc hpc
    simp only [ginit] at hpc
    rw [List.eq_of_mem_replicate hpc]
    trivial
  obtain ⟨h1, h2⟩ := binOk_run data L sched _ s length_zeroHist h0 h
  refine ⟨h1, fun pc hpc he => ?_⟩
  have := h2 pc hpc
  rw [he] at this
  cases this

/-! ## The empty buffer -/

theorem localHist_zero_length (data : List Int) (N : Nat) (hN : 1 ≤ N) :
    localHist data 0 N = .ok zeroHist ∧
      ∀ i, workerEnd 0 N i - workerStart 0 N i = 0 := by
  have hs : ∀ i, workerStart 0 N i = 0 := by
    intro i
    simp [workerStart, workLoad]
  have he : ∀ i, workerEnd 0 N i = 0 := by
    intro i
    unfold workerEnd
    rw [hs i]
    simp [workLoad]
  have hin : ∀ i, i < N → WorkerInBounds data 0 N i := by
    intro i _
    unfold WorkerInBounds
    rw [hs i, he i]
    omega
  obtain ⟨h, h1, h2, h3⟩ := localHist_counts data 0 N hN hin
  have hc : ∀ k v, coveredCount data 0 N k v = 0 := by
    intro k v
    induction k with
    | zero => rfl
    | succ k ih => rw [coveredCount, ih, hs k, he k, rangeCount_zero]
  have hz : h = zeroHist :=
    hist_ext h zeroHist h2 length_zeroHist
      (fun v _ => by rw [h3 v, hc N v, getD_zeroHist])
  rw [hz] at h1
  exact ⟨h1, fun i => by rw [hs i, he i]⟩

theorem emptyInv_init (c0 N : Nat) : EmptyInv (ginit c0 N) := by
  refine ⟨rfl, rfl, fun pc hpc => ?_⟩
  simp only [ginit] at hpc
  exact Or.inl (List.eq_of_mem_replicate hpc)

theorem emptyInv_step (data : List Int) (s s1 : GState) (i : Nat)
    (I : EmptyInv s) (h : gstep data 0 s i = some s1) :
    EmptyInv s1 ∧ s1.workers.length = s.workers.length ∧
      wsum doneW s1.workers = wsum doneW s.workers + 1 := by
  obtain ⟨hh, hm, hw⟩ := I
  cases hpc : s.workers[i]? with
  | none => simp only [gstep, hpc] at h; cases h
  | some pc =>
    rcases hw pc (List.getElem?_mem hpc) with e | e
    · subst e
      simp only [gstep, hpc, Nat.zero_le, if_true] at h
      cases h
      have hd := wsum_set doneW .done s.workers i _ hpc
      simp only [doneW] at hd
      refine ⟨⟨hh, hm, ?_⟩, ?_, ?_⟩
      · intro pc hpc1
        simp only [GState.goto] at hpc1
        rcases List.mem_or_eq_of_mem_set hpc1 with h1 | h1
        · exact hw pc h1
        · exact Or.inr h1
      · simp only [GState.goto, List.length_set]
      · simp only [GState.goto]; omega
    · subst e
      simp only [gstep, hpc] at h
      cases h

theorem emptyInv_run (data : List Int) :
    ∀ (sched : List Nat) (s s1 : GState), EmptyInv s →
      grun data 0 s sched = some s1 → EmptyInv s1 := by
  intro sched
  induction sched with
  | nil =>
    intro s s1 I h
    simp only [grun, Option.some.injEq] at h
    subst h
    exact I
  | cons i rest ih =>
    intro s s1 I h
    cases hstep : gstep data 0 s i with
    | none => simp only [grun, hstep] at h; cases h
    | some s2 =>
      simp only [grun, hstep] at h
      exact ih s2 s1 (emptyInv_step data s s2 i I hstep).1 h

theorem emptyInv_terminates (data : List Int) :
    ∀ (n : Nat) (s : GState), s.workers.length ≤ wsum doneW s.workers + n → EmptyInv s →
      ∃ sched s1, grun data 0 s sched = some s1 ∧ allDone s1 = true := by
  intro n
  induction n with
  | zero =>
    intro s hn I
    cases hd : allDone s with
    | true => exact ⟨[], s, rfl, hd⟩
    | false =>
      obtain ⟨i, pc, hpc, hne⟩ := exists_not_done s.workers hd
      have hlt := wsum_doneW_lt s.workers i pc hpc (by cases pc <;> first | rfl | exact (hne rfl).elim)
      omega
  | succ n ih =>
    intro s hn I
    cases hd : allDone s with
    | true => exact ⟨[], s, rfl, hd⟩
    | false =>
      obtain ⟨i, pc, hpc, hne⟩ := exists_not_done s.workers hd
      have hf : pc = PC.fetch := by
        rcases I.2.2 pc (List.getElem?_mem hpc) with e | e
        · exact e
        · exact (hne e).elim
      subst hf
      have hstep : gstep data 0 s i = some
          ({ s with globalIndex := (s.globalIndex + 1) % SIZE_T_MOD }.goto i .done) := by
        simp only [gstep, hpc, Nat.zero_le, if_true]
      obtain ⟨I1, hl1, hd1⟩ := emptyInv_step data s _ i I hstep
      obtain ⟨sched, s2, hrun, hdone⟩ := ih _ (by omega) I1
      exact ⟨i :: sched, s2, by simp only [grun, hstep]; exact hrun, hdone⟩

/-! ## Buffers at the edge of the 32-bit types -/

/-- One worker on `2 ^ 32` equal bytes: `end` is stored as `0` and nothing is
counted. -/
theorem localHist_replicate_one (c : Int) :
    localHist (List.replicate (2 ^ 32) c) (2 ^ 32) 1 = .ok zeroHist := by
  have hs : workerStart (2 ^ 32) 1 0 = 0 := by decide
  have he : workerEnd (2 ^ 32) 1 0 = 0 := by decide
  have hin : ∀ i, i < 1 → WorkerInBounds (List.replicate (2 ^ 32) c) (2 ^ 32) 1 i := by
    intro i hi
    have : i = 0 := by omega
    subst this
    unfold WorkerInBounds
    rw [hs, he]
    omega
  obtain ⟨h, h1, h2, h3⟩ := localHist_counts _ (2 ^ 32) 1 (le_refl _) hin
  have hz : h = zeroHist :=
    hist_ext h zeroHist h2 length_zeroHist (fun v _ => by
      rw [h3 v, getD_zeroHist, coveredCount, coveredCount, hs, he, rangeCount_zero])
  rw [hz] at h1
  exact h1

/-- Two workers on `2 ^ 32` equal bytes: the first counts `2 ^ 31` bytes, the
second has `end` stored as `0` and counts nothing. -/
theorem localHist_replicate_two (c : Int) :
    ∃ h, localHist (List.replicate (2 ^ 32) c) (2 ^ 32) 2 = .ok h ∧
      h.getD (toUChar c) 0 = 2 ^ 31 := by
  have hs0 : workerStart (2 ^ 32) 2 0 = 0 := by decide
  have he0 : workerEnd (2 ^ 32) 2 0 = 2 ^ 31 := by decide
  have hs1 : workerStart (2 ^ 32) 2 1 = 2 ^ 31 := by decide
  have he1 : workerEnd (2 ^ 32) 2 1 = 0 := by decide
  have hin : ∀ i, i < 2 → WorkerInBounds (List.replicate (2 ^ 32) c) (2 ^ 32) 2 i := by
    intro i hi
    unfold WorkerInBounds
    rw [List.length_replicate]
    rcases (by omega : i = 0 ∨ i = 1) with e | e
    · subst e; rw [hs0, he0]; omega
    · subst e; rw [hs1, he1]; omega
  obtain ⟨h, h1, _, h3⟩ := localHist_counts _ (2 ^ 32) 2 (by omega) hin
  refine ⟨h, h1, ?_⟩
  rw [h3, coveredCount, coveredCount, coveredCount, hs0, he0, hs1, he1,
    rangeCount_replicate, rangeCount_replicate]
  simp

/-- One worker of `globalHist` on `2 ^ 31 + 1` equal bytes, the cursor at
zero: the call ends, and it ends with `2 ^ 31` bytes counted. -/
theorem globalHist_replicate_past (c : Int) :
    (∃ h k, globalHist (List.replicate (2 ^ 31 + 1) c) (2 ^ 31 + 1) 1 0 h k) ∧
    ∀ h k, globalHist (List.replicate (2 ^ 31 + 1) c) (2 ^ 31 + 1) 1 0 h k →
      h.length = 256 ∧ ∀ v, h.getD v 0 = if toUChar c = v then 2 ^ 31 else 0 := by
  have hlen : (List.replicate (2 ^ 31 + 1) c).length = 2 ^ 31 + 1 := List.length_replicate _ _
  have key := globalHist_from_zero (List.replicate (2 ^ 31 + 1) c) 1
    (by rw [hlen]; omega) (le_refl _) (by omega)
  rw [hlen] at key
  refine ⟨key.1, fun h k he => ?_⟩
  obtain ⟨_, e2, e3⟩ := key.2 h k he
  refine ⟨e2, fun v => ?_⟩
  rw [e3 v, rangeCount_replicate]
  have : min (min (2 ^ 31 + 1) (2 ^ 31)) (2 ^ 31 + 1 - 0) = 2 ^ 31 := by omega
  rw [this]

/-- A second call of `globalHist` in the same process, entered with the
cursor where a first call on the same buffer left it: every worker stops at
its first claim and the histogram stays at 256 zeros. -/
theorem globalHist_second_call (data : List Int) (N : Nat) (hN : 1 ≤ N)
    (hfit : data.length + 2 * N ≤ 2 ^ 31) :
    (∃ h k, globalHist data data.length N (data.length + N) h k) ∧
    ∀ h k, globalHist data data.length N (data.length + N) h k →
      h = zeroHist ∧ k = data.length + 2 * N := by
  obtain ⟨h1, _, h3⟩ := globalHist_window data data.length (data.length + N) 0 N
    (claimWindow_past data (data.length + N) N (by omega) (by omega)) hN
  refine ⟨h1, fun h k he => ?_⟩
  obtain ⟨e1, e2, e3⟩ := h3 h k he
  refine ⟨hist_ext h zeroHist e2 length_zeroHist (fun v _ => ?_), by omega⟩
  rw [e3 v, rangeCount_zero, getD_zeroHist]

/-! ## The claims -/

/-- C1. `localHist` returns the exact histogram for every buffer shorter than
`2 ^ 32` bytes and every worker count `N >= 1`. At `2 ^ 32` bytes it does
not: on `2 ^ 32` zero bytes with one worker the `unsigned int end` holds `0`,
the counting loop does not run, and the result is 256 zeros although the
buffer has `2 ^ 32` offsets whose byte is `0`. -/
theorem localHist_exact_up_to_uint_range :
    (∀ (data : List Int) (N : Nat), 1 ≤ N → data.length < 2 ^ 32 →
      ∃ h, localHist data data.length N = .ok h ∧ h.length = 256 ∧
        ∀ v, v < 256 → h.getD v 0 = exactCount data v) ∧
    (localHist (List.replicate (2 ^ 32) 0) (2 ^ 32) 1 = .ok zeroHist ∧
      zeroHist.getD 0 0 = 0 ∧
      exactCount (List.replicate (2 ^ 32) 0) 0 = 2 ^ 32) := by
  refine ⟨fun data N hN hL => ?_, ?_, getD_zeroHist 0, ?_⟩
  · obtain ⟨h, h1, h2, h3⟩ := localHist_exact_small data N hL hN
    exact ⟨h, h1, h2, fun v _ => h3 v⟩
  · exact localHist_replicate_one 0
  · rw [exactCount_replicate]
    rfl

/-- C2. Entered with the cursor at zero, `globalHist` ends under some
schedule, no schedule runs longer than `5 * (L + N)` steps or gets stuck
before all workers have finished, and for a buffer of at most `2 ^ 31` bytes
every schedule leaves the exact histogram. Past `2 ^ 31` bytes it does not:
on `2 ^ 31 + 1` zero bytes with one worker the cursor value `2 ^ 31` becomes
a negative `int index`, the worker stops, and every schedule leaves
`2 ^ 31` in bin 0 although the buffer has `2 ^ 31 + 1` zero bytes. -/
theorem globalHist_exact_up_to_int_range :
    (∀ (data : List Int) (N : Nat), 1 ≤ N → N < 2 ^ 31 → data.length ≤ 2 ^ 31 →
      (∃ h c, globalHist data data.length N 0 h c) ∧
      (∀ sched s, grun data data.length (ginit 0 N) sched = some s →
        sched.length ≤ 5 * (data.length + N) ∧
        (allDone s = false → ∃ i s1, gstep data data.length s i = some s1)) ∧
      (∀ h c, globalHist data data.length N 0 h c →
        h.length = 256 ∧ ∀ v, v < 256 → h.getD v 0 = exactCount data v)) ∧
    ((∃ h c, globalHist (List.replicate (2 ^ 31 + 1) 0) (2 ^ 31 + 1) 1 0 h c) ∧
      (∀ h c, globalHist (List.replicate (2 ^ 31 + 1) 0) (2 ^ 31 + 1) 1 0 h c →
        h.getD 0 0 = 2 ^ 31) ∧
      exactCount (List.replicate (2 ^ 31 + 1) 0) 0 = 2 ^ 31 + 1) := by
  refine ⟨fun data N hN1 hN hL => ?_, (globalHist_replicate_past 0).1, ?_, ?_⟩
  · have W := claimWindow_zero data N (by omega) (by omega)
    have hm : min data.length (2 ^ 31) = data.length := by omega
    rw [hm] at W
    obtain ⟨h1, h2, h3⟩ := globalHist_window data data.length 0 data.length N W hN1
    refine ⟨h1, fun sched s hrun => ?_, fun h c he => ?_⟩
    · exact h2 sched s hrun
    · obtain ⟨_, e2, e3⟩ := h3 h c he
      exact ⟨e2, fun v _ => by rw [e3 v, rangeCount_full]⟩
  · intro h c he
    have := ((globalHist_replicate_past 0).2 h c he).2 0
    rw [this]
    rfl
  · rw [exactCount_replicate]
    rfl

/-- C3. For a buffer of at most `2 ^ 31` bytes and `N >= 1` workers every end
of `globalHist` (cursor at zero) is the histogram `localHist` returns. Past
`2 ^ 31` bytes the two differ: on `2 ^ 31 + 1` zero bytes with one worker
`localHist` has `2 ^ 31 + 1` in bin 0 and every end of `globalHist` has
`2 ^ 31`. -/
theorem strategies_agree_up_to_int_range :
    (∀ (data : List Int) (N : Nat), 1 ≤ N → N < 2 ^ 31 → data.length ≤ 2 ^ 31 →
      ∃ hl, localHist data data.length N = .ok hl ∧
        (∃ c, globalHist data data.length N 0 hl c) ∧
        ∀ h c, globalHist data data.length N 0 h c → h = hl) ∧
    (∃ hl, localHist (List.replicate (2 ^ 31 + 1) 0) (2 ^ 31 + 1) 1 = .ok hl ∧
      hl.getD 0 0 = 2 ^ 31 + 1 ∧
      (∃ h c, globalHist (List.replicate (2 ^ 31 + 1) 0) (2 ^ 31 + 1) 1 0 h c) ∧
      ∀ h c, globalHist (List.replicate (2 ^ 31 + 1) 0) (2 ^ 31 + 1) 1 0 h c →
        h.getD 0 0 = 2 ^ 31) := by
  refine ⟨fun data N hN1 hN hL => ?_, ?_⟩
  · obtain ⟨hl, l1, l2, l3⟩ := localHist_exact_small data N (by omega) hN1
    obtain ⟨⟨h0, c0, he0⟩, g2⟩ := globalHist_exact_small data N hL hN1 (by omega)
    have heq : ∀ h c, globalHist data data.length N 0 h c → h = hl := by
      intro h c he
      obtain ⟨_, e2, e3⟩ := g2 h c he
      exact hist_ext h hl e2 l2 (fun v _ => by rw [e3 v, l3 v])
    refine ⟨hl, l1, ⟨c0, ?_⟩, heq⟩
    rw [← heq h0 c0 he0]
    exact he0
  · have hlen : (List.replicate (2 ^ 31 + 1) (0 : Int)).length = 2 ^ 31 + 1 :=
      List.length_replicate _ _
    have key := localHist_exact_small (List.replicate (2 ^ 31 + 1) 0) 1
      (by rw [hlen]; omega) (le_refl _)
    rw [hlen] at key
    obtain ⟨hl, l1, _, l3⟩ := key
    refine ⟨hl, l1, ?_, (globalHist_replicate_past 0).1, fun h c he => ?_⟩
    · rw [l3 0, exactCount_replicate]
      rfl
    · have := ((globalHist_replicate_past 0).2 h c he).2 0
      rw [this]
      rfl

/-- C4. The 256 bins add up to the buffer length for every end of
`globalHist` (cursor at zero) on at most `2 ^ 31` bytes and for `localHist`
on fewer than `2 ^ 32` bytes. Beyond that they do not: on `2 ^ 31 + 1` zero
bytes with one worker every end of `globalHist` has bin sum `2 ^ 31`, and on
`2 ^ 32` zero bytes with one worker `localHist` has bin sum `0`. -/
theorem binSum_eq_length_up_to_int_range :
    (∀ (data : List Int) (N : Nat), 1 ≤ N → N < 2 ^ 31 → data.length ≤ 2 ^ 31 →
      (∃ h c, globalHist data data.length N 0 h c) ∧
      (∀ h c, globalHist data data.length N 0 h c → binSum h = data.length) ∧
      ∃ hl, localHist data data.length N = .ok hl ∧ binSum hl = data.length) ∧
    (∀ (data : List Int) (N : Nat), 1 ≤ N → data.length < 2 ^ 32 →
      ∃ hl, localHist data data.length N = .ok hl ∧ binSum hl = data.length) ∧
    ((∃ h c, globalHist (List.replicate (2 ^ 31 + 1) 0) (2 ^ 31 + 1) 1 0 h c) ∧
      (∀ h c, globalHist (List.replicate (2 ^ 31 + 1) 0) (2 ^ 31 + 1) 1 0 h c →
        binSum h = 2 ^ 31) ∧
      ∃ hl, localHist (List.replicate (2 ^ 32) 0) (2 ^ 32) 1 = .ok hl ∧ binSum hl = 0) := by
  have hloc : ∀ (data : List Int) (N : Nat), 1 ≤ N → data.length < 2 ^ 32 →
      ∃ hl, localHist data data.length N = .ok hl ∧ binSum hl = data.length := by
    intro data N hN hL
    obtain ⟨hl, l1, l2, l3⟩ := localHist_exact_small data N hL hN
    exact ⟨hl, l1, binSum_of_exactCount data hl l2 l3⟩
  refine ⟨fun data N hN1 hN hL => ?_, hloc, (globalHist_replicate_past 0).1, ?_, ?_⟩
  · obtain ⟨g1, g2⟩ := globalHist_exact_small data N hL hN1 (by omega)
    refine ⟨g1, fun h c he => ?_, hloc data N hN1 (by omega)⟩
    obtain ⟨_, e2, e3⟩ := g2 h c he
    exact binSum_of_exactCount data h e2 e3
  · intro h c he
    obtain ⟨e2, e3⟩ := (globalHist_replicate_past 0).2 h c he
    have hr : ∀ v, h.getD v 0
        = rangeCount (List.replicate (2 ^ 31 + 1) (0 : Int)) 0 (2 ^ 31) v := by
      intro v
      rw [e3 v, rangeCount_replicate]
      have : min (2 ^ 31) (2 ^ 31 + 1 - 0) = 2 ^ 31 := by omega
      rw [this]
    rw [binSum_of_rangeCount _ h 0 (2 ^ 31) e2 hr, List.length_replicate]
    omega
  · refine ⟨zeroHist, localHist_replicate_one 0, ?_⟩
    have hz : ∀ v, zeroHist.getD v 0 = rangeCount ([] : List Int) 0 0 v := by
      intro v
      rw [getD_zeroHist, rangeCount_zero]
    rw [binSum_of_rangeCount [] zeroHist 0 0 length_zeroHist hz]
    rfl

/-- C5. For `L < 2 ^ 32` and `N >= 1` the ranges of `localHist` start at `0`,
are well ordered, each end where the next starts, and the last ends at `L`.
At `L = 2 ^ 32` with one worker the last range does not end at `L`: `end` is
stored in an `unsigned int` and holds `0`. -/
theorem ranges_tile_up_to_uint_range :
    (∀ (L N : Nat), 1 ≤ N → L < 2 ^ 32 →
      workerStart L N 0 = 0 ∧
      (∀ i, i < N → workerStart L N i ≤ workerEnd L N i) ∧
      (∀ i, i + 1 < N → workerEnd L N i = workerStart L N (i + 1)) ∧
      workerEnd L N (N - 1) = L) ∧
    (workerStart (2 ^ 32) 1 0 = 0 ∧ workerEnd (2 ^ 32) 1 (1 - 1) = 0 ∧
      workerEnd (2 ^ 32) 1 (1 - 1) ≠ 2 ^ 32) := by
  refine ⟨fun L N hN hL => partition_small L N hL hN, ?_, ?_, ?_⟩ <;> decide

/-- C6. A second call of `globalHist` does not repeat the first: on the
buffer `[0x00, 0xFF, 0x00, 0xFF]` with two workers the first call (cursor at
zero) ends with `2` in bin 0 and the cursor at `6`, and a second call,
entered with the cursor where the first left it, ends with 256 zeros. Both
calls end under some schedule. -/
theorem globalHist_second_call_counts_nothing :
    (∃ h1 c1 h2 c2, globalHist [0, -1, 0, -1] 4 2 0 h1 c1 ∧
      globalHist [0, -1, 0, -1] 4 2 c1 h2 c2) ∧
    (∀ h1 c1 h2 c2, globalHist [0, -1, 0, -1] 4 2 0 h1 c1 →
      globalHist [0, -1, 0, -1] 4 2 c1 h2 c2 →
      h1.getD 0 0 = 2 ∧ c1 = 6 ∧ h2 = zeroHist ∧ h2.getD 0 0 = 0 ∧ h2 ≠ h1) := by
  have first := globalHist_exact_small [0, -1, 0, -1] 2 (by simp) (by omega) (by omega)
  have second := globalHist_second_call [0, -1, 0, -1] 2 (by omega) (by simp)
  have hlen : ([0, -1, 0, -1] : List Int).length = 4 := rfl
  rw [hlen] at first second
  have hbin : exactCount [0, -1, 0, -1] 0 = 2 := by decide
  constructor
  · obtain ⟨h1, c1, e1⟩ := first.1
    obtain ⟨h2, c2, e2⟩ := second.1
    have hc1 : c1 = 4 + 2 := (first.2 h1 c1 e1).1
    rw [← hc1] at e2
    exact ⟨h1, c1, h2, c2, e1, e2⟩
  · intro h1 c1 h2 c2 e1 e2
    obtain ⟨hc1, _, hb1⟩ := first.2 h1 c1 e1
    rw [hc1] at e2
    obtain ⟨hz, _⟩ := second.2 h2 c2 e2
    have h10 : h1.getD 0 0 = 2 := by rw [hb1 0, hbin]
    refine ⟨h10, hc1, hz, by rw [hz, getD_zeroHist], fun e => ?_⟩
    rw [← e, hz, getD_zeroHist] at h10
    omega

/-- C7. The histogram of `globalHist` (cursor at zero) does not depend on the
worker count, and below `2 ^ 32` bytes neither does that of `localHist`. At
`2 ^ 32` bytes `localHist` depends on it: on `2 ^ 32` zero bytes one worker
leaves `0` in bin 0 and two workers leave `2 ^ 31`. -/
theorem worker_count_invariance_up_to_uint_range :
    (∀ (data : List Int) (N1 N2 : Nat), 1 ≤ N1 → 1 ≤ N2 → data.length < 2 ^ 32 →
      ∃ h, localHist data data.length N1 = .ok h ∧ localHist data data.length N2 = .ok h) ∧
    (∀ (data : List Int) (N1 N2 : Nat), 1 ≤ N1 → N1 < 2 ^ 31 → 1 ≤ N2 → N2 < 2 ^ 31 →
      data.length ≤ 2 ^ 64 - 2 ^ 31 →
      (∃ h c, globalHist data data.length N1 0 h c) ∧
      (∃ h c, globalHist data data.length N2 0 h c) ∧
      ∀ h1 c1 h2 c2, globalHist data data.length N1 0 h1 c1 →
        globalHist data data.length N2 0 h2 c2 → h1 = h2) ∧
    (∃ h1 h2, localHist (List.replicate (2 ^ 32) 0) (2 ^ 32) 1 = .ok h1 ∧
      localHist (List.replicate (2 ^ 32) 0) (2 ^ 32) 2 = .ok h2 ∧
      h1.getD 0 0 = 0 ∧ h2.getD 0 0 = 2 ^ 31) := by
  refine ⟨fun data N1 N2 h1 h2 hL => ?_, fun data N1 N2 h1 h1b h2 h2b hL => ?_, ?_⟩
  · obtain ⟨a, a1, a2, a3⟩ := localHist_exact_small data N1 hL h1
    obtain ⟨b, b1, b2, b3⟩ := localHist_exact_small data N2 hL h2
    have : b = a := hist_ext b a b2 a2 (fun v _ => by rw [a3 v, b3 v])
    rw [this] at b1
    exact ⟨a, a1, b1⟩
  · obtain ⟨g1, g2⟩ := globalHist_from_zero data N1 hL h1 (by omega)
    obtain ⟨k1, k2⟩ := globalHist_from_zero data N2 hL h2 (by omega)
    refine ⟨g1, k1, fun x1 c1 x2 c2 e1 e2 => ?_⟩
    obtain ⟨_, p2, p3⟩ := g2 x1 c1 e1
    obtain ⟨_, q2, q3⟩ := k2 x2 c2 e2
    exact hist_ext x1 x2 p2 q2 (fun v _ => by rw [p3 v, q3 v])
  · obtain ⟨h2, e2, b2⟩ := localHist_replicate_two 0
    exact ⟨zeroHist, h2, localHist_replicate_one 0, e2, getD_zeroHist 0, b2⟩

theorem exactCount_eq_countP (data : List Int) (v : Nat) :
    exactCount data v = data.countP (fun c => toUChar c == v) :=
  countP_range_getElem data v

/-- The counts of the buffer `[0x00, 0xFF, 0x00, 0xFF]`, its chars stored as
`0, -1, 0, -1`. -/
theorem exactCount_sample (v : Nat) :
    exactCount [0, -1, 0, -1] v = if v = 0 ∨ v = 255 then 2 else 0 := by
  have h0 : toUChar 0 = 0 := rfl
  have h1 : toUChar (-1) = 255 := rfl
  rw [exactCount_eq_countP]
  simp only [List.countP_cons, List.countP_nil, h0, h1, beq_iff_eq]
  by_cases a : v = 0
  · subst a; simp
  · by_cases b : v = 255
    · subst b; simp
    · have a1 : ¬ 0 = v := fun e => a e.symm
      have b1 : ¬ 255 = v := fun e => b e.symm
      simp [a, b, a1, b1]

/-- C8. A stored char `c` (signed value in `-128 .. 127`) is counted in the
bin of its unsigned value: the index `static_cast<unsigned char>(c)` is below
256, it is `c + 256` for a negative `c` and `c` otherwise, and the increment
at that index succeeds on a 256-bin histogram. No run of `localHist` and no
state of `globalHist` has an access outside the 256 bins, for any buffer,
length, worker count and cursor. On `[0x00, 0xFF, 0x00, 0xFF]` with two
workers both give bin 0 = 2, bin 255 = 2 and every other bin 0. -/
theorem unsigned_byte_index (c : Int) (hlo : -128 ≤ c) (hhi : c ≤ 127) :
    toUChar c < 256 ∧
    (c < 0 → (toUChar c : Int) = c + 256) ∧
    (0 ≤ c → (toUChar c : Int) = c) ∧
    (∀ h : Hist, h.length = 256 →
      incrBin h (toUChar c) = .ok (h.set (toUChar c) (h.getD (toUChar c) 0 + 1))) ∧
    (∀ (data : List Int) (L N : Nat), localHist data L N ≠ .error .oobBin) ∧
    (∀ (data : List Int) (L c0 N : Nat) (sched : List Nat) (s : GState),
      grun data L (ginit c0 N) sched = some s →
      s.GlobalHist.length = 256 ∧ ∀ pc ∈ s.workers, pc ≠ PC.fault .oobBin) ∧
    (∃ h, localHist [0, -1, 0, -1] 4 2 = .ok h ∧
      ∀ v, v < 256 → h.getD v 0 = if v = 0 ∨ v = 255 then 2 else 0) ∧
    (∃ h k, globalHist [0, -1, 0, -1] 4 2 0 h k) ∧
    (∀ h k, globalHist [0, -1, 0, -1] 4 2 0 h k →
      ∀ v, v < 256 → h.getD v 0 = if v = 0 ∨ v = 255 then 2 else 0) := by
  have hlen : ([0, -1, 0, -1] : List Int).length = 4 := rfl
  have loc := localHist_exact_small [0, -1, 0, -1] 2 (by simp) (by omega)
  have glo := globalHist_exact_small [0, -1, 0, -1] 2 (by simp) (by omega) (by omega)
  rw [hlen] at loc glo
  refine ⟨toUChar_lt c, fun h => toUChar_of_neg c hlo h, fun h => toUChar_of_nonneg c h hhi,
    fun h hl => incrBin_eq h _ (by rw [hl]; exact toUChar_lt c),
    localHist_no_oobBin, globalHist_no_oobBin, ?_, glo.1, ?_⟩
  · obtain ⟨h, h1, _, h3⟩ := loc
    exact ⟨h, h1, fun v _ => by rw [h3 v, exactCount_sample]⟩
  · intro h k he v _
    rw [(glo.2 h k he).2.2 v, exactCount_sample]

/-- C8 at the char `-1` (the byte `0xFF`): it is counted in bin 255. -/
theorem unsigned_byte_index_witness :
    toUChar (-1) < 256 ∧ (toUChar (-1) : Int) = -1 + 256 ∧
    (∃ h, localHist [0, -1, 0, -1] 4 2 = .ok h ∧ h.getD 0 0 = 2 ∧ h.getD 255 0 = 2 ∧
      h.getD 1 0 = 0) := by
  have key := unsigned_byte_index (-1) (by decide) (by decide)
  refine ⟨key.1, key.2.1 (by decide), ?_⟩
  obtain ⟨h, h1, h2⟩ := key.2.2.2.2.2.2.1
  exact ⟨h, h1, h2 0 (by decide), h2 255 (by decide), h2 1 (by decide)⟩

/-- C9. With a length of zero and `N >= 1` workers, whatever the buffer
pointer designates: `localHist` returns 256 zeros and every worker's loop has
zero iterations; `globalHist`, from any cursor value, ends under some
schedule, every state it reaches has 256 zero bins and every worker either
before its first `fetch_add` or finished (none ever at the read of line 70, none
faulted), so every end is 256 zeros. -/
theorem empty_buffer_all_zero (data : List Int) (N c0 : Nat) (hN : 1 ≤ N) :
    localHist data 0 N = .ok zeroHist ∧
    (∀ i, workerEnd 0 N i - workerStart 0 N i = 0) ∧
    (∃ c, globalHist data 0 N c0 zeroHist c) ∧
    (∀ sched s, grun data 0 (ginit c0 N) sched = some s →
      s.GlobalHist = zeroHist ∧ ∀ pc ∈ s.workers, pc = PC.fetch ∨ pc = PC.done) ∧
    (∀ h c, globalHist data 0 N c0 h c → h = zeroHist) ∧
    (∀ v, zeroHist.getD v 0 = 0) := by
  obtain ⟨l1, l2⟩ := localHist_zero_length data N hN
  have hreach : ∀ sched s, grun data 0 (ginit c0 N) sched = some s → EmptyInv s :=
    fun sched s hrun => emptyInv_run data sched _ s (emptyInv_init c0 N) hrun
  refine ⟨l1, l2, ?_, fun sched s hrun => ?_, ?_, getD_zeroHist⟩
  · obtain ⟨sched, s, hrun, hdone⟩ :=
      emptyInv_terminates data (ginit c0 N).workers.length (ginit c0 N) (by omega)
        (emptyInv_init c0 N)
    exact ⟨s.globalIndex, sched, s, hrun, hdone, (hreach sched s hrun).1, rfl⟩
  · exact ⟨(hreach sched s hrun).1, (hreach sched s hrun).2.2⟩
  · rintro h c ⟨sched, s, hrun, _, rfl, _⟩
    exact (hreach sched s hrun).1

/-- C9 on the empty buffer with three workers and the cursor at 7. -/
theorem empty_buffer_all_zero_witness :
    localHist [] 0 3 = .ok zeroHist ∧ (∃ c, globalHist [] 0 3 7 zeroHist c) ∧
    ∀ h c, globalHist [] 0 3 7 h c → h = zeroHist :=
  ⟨(empty_buffer_all_zero [] 3 7 (by decide)).1,
   (empty_buffer_all_zero [] 3 7 (by decide)).2.2.1,
   (empty_buffer_all_zero [] 3 7 (by decide)).2.2.2.2.1⟩

/-- C10. On `L` bytes all equal to the char `c`, `localHist` (for
`L < 2 ^ 32`) and every end of `globalHist` (cursor at zero, `L <= 2 ^ 31`)
have `L` in the bin of `c` and `0` in every other bin; so on 1000 bytes equal
to 65, bin 65 is 1000 and the others are 0. For larger `L` they do not: on
`2 ^ 32` bytes equal to 65 with one worker `localHist` leaves bin 65 at `0`,
and on `2 ^ 31 + 1` such bytes every end of `globalHist` has `2 ^ 31` there. -/
theorem constant_buffer_up_to_int_range :
    (∀ (c : Int) (L N : Nat), 1 ≤ N → L < 2 ^ 32 →
      ∃ h, localHist (List.replicate L c) L N = .ok h ∧
        ∀ v, v < 256 → h.getD v 0 = if toUChar c = v then L else 0) ∧
    (∀ (c : Int) (L N : Nat), 1 ≤ N → N < 2 ^ 31 → L ≤ 2 ^ 31 →
      (∃ h k, globalHist (List.replicate L c) L N 0 h k) ∧
      ∀ h k, globalHist (List.replicate L c) L N 0 h k →
        ∀ v, v < 256 → h.getD v 0 = if toUChar c = v then L else 0) ∧
    (∃ h, localHist (List.replicate 1000 65) 1000 4 = .ok h ∧
      ∀ v, v < 256 → h.getD v 0 = if v = 65 then 1000 else 0) ∧
    (∃ h, localHist (List.replicate (2 ^ 32) 65) (2 ^ 32) 1 = .ok h ∧ h.getD 65 0 = 0) ∧
    (∃ h k, globalHist (List.replicate (2 ^ 31 + 1) 65) (2 ^ 31 + 1) 1 0 h k) ∧
    (∀ h k, globalHist (List.replicate (2 ^ 31 + 1) 65) (2 ^ 31 + 1) 1 0 h k →
      h.getD 65 0 = 2 ^ 31) := by
  have hloc : ∀ (c : Int) (L N : Nat), 1 ≤ N → L < 2 ^ 32 →
      ∃ h, localHist (List.replicate L c) L N = .ok h ∧
        ∀ v, v < 256 → h.getD v 0 = if toUChar c = v then L else 0 := by
    intro c L N hN hL
    have hlen : (List.replicate L c).length = L := List.length_replicate _ _
    have key := localHist_exact_small (List.replicate L c) N (by rw [hlen]; exact hL) hN
    rw [hlen] at key
    obtain ⟨h, h1, _, h3⟩ := key
    exact ⟨h, h1, fun v _ => by rw [h3 v, exactCount_replicate]⟩
  refine ⟨hloc, fun c L N hN1 hN hL => ?_, ?_, ⟨zeroHist, localHist_replicate_one 65,
    getD_zeroHist 65⟩, (globalHist_replicate_past 65).1, fun h k he => ?_⟩
  · have hlen : (List.replicate L c).length = L := List.length_replicate _ _
    have key := globalHist_exact_small (List.replicate L c) N (by rw [hlen]; exact hL) hN1
      (by omega)
    rw [hlen] at key
    refine ⟨key.1, fun h k he v _ => ?_⟩
    rw [(key.2 h k he).2.2 v, exactCount_replicate]
  · obtain ⟨h, h1, h2⟩ := hloc 65 1000 4 (by omega) (by omega)
    refine ⟨h, h1, fun v hv => ?_⟩
    rw [h2 v hv]
    have h65 : toUChar 65 = 65 := rfl
    rw [h65]
    by_cases e : v = 65
    · subst e; rfl
    · have e1 : ¬ 65 = v := fun x => e x.symm
      rw [if_neg e, if_neg e1]
  · have := ((globalHist_replicate_past 65).2 h k he).2 65
    rw [this]
    rfl

/-! ## What each worker of `localHist` counts -/

theorem workerStart_lt (L N i : Nat) : workerStart L N i < 2 ^ 32 := by
  unfold workerStart UINT_MOD
  exact Nat.mod_lt _ (by decide)

theorem workerEnd_lt (L N i : Nat) : workerEnd L N i < 2 ^ 32 := by
  unfold workerEnd UINT_MOD
  split <;> exact Nat.mod_lt _ (by decide)

/-- Every worker of `localHist` stays inside the buffer, whatever its
length: below `2 ^ 32` bytes the ranges are the exact ones, and from
`2 ^ 32` bytes on any 32-bit `end` is an offset of the buffer. -/
theorem workerInBounds_all (data : List Int) (N i : Nat) (hi : i < N) :
    WorkerInBounds data data.length N i := by
  by_cases hL : data.length < 2 ^ 32
  · exact workerInBounds_small data N i hL hi
  · have h1 := workerStart_lt data.length N i
    have h2 := workerEnd_lt data.length N i
    unfold WorkerInBounds
    omega

/-- A worker that stays inside the buffer counts as many bytes as its loop
has iterations, `end - start`. -/
theorem localWorker_binSum (data : List Int) (L N i : Nat)
    (hin : WorkerInBounds data L N i) :
    ∃ h, localWorker data L N i = .ok h ∧ h.length = 256 ∧
      binSum h = workerEnd L N i - workerStart L N i := by
  obtain ⟨h, h1, h2, h3⟩ := localWorker_spec data L N i hin
  refine ⟨h, h1, h2, ?_⟩
  rw [binSum_of_rangeCount data h _ _ h2 h3]
  unfold WorkerInBounds at hin
  omega

theorem countFrom_getD_le (data : List Int) :
    ∀ (n j : Nat) (h h1 : Hist), countFrom data n j h = .ok h1 →
      ∀ v, h1.getD v 0 ≤ h.getD v 0 + n := by
  intro n
  induction n with
  | zero =>
    intro j h h1 he v
    simp only [countFrom, Except.ok.injEq] at he
    subst he
    omega
  | succ n ih =>
    intro j h h1 he v
    cases hc : data[j]? with
    | none => simp only [countFrom, hc] at he; cases he
    | some c =>
      by_cases hb : toUChar c < h.length
      · simp only [countFrom, hc, incrBin_eq h _ hb] at he
        have := ih (j + 1) _ h1 he v
        rw [getD_set_bin h _ _ v hb] at this
        by_cases hv : v = toUChar c
        · subst hv
          simp only [if_true] at this
          omega
        · simp only [hv, if_false] at this
          omega
      · simp only [countFrom, hc, incrBin, hb, if_false] at he
        cases he

/-- The private histograms of `localHist` hold fewer than `2 ^ 32` per bin
each, so the merged counters stay below `N * 2 ^ 32`. -/
theorem localHistos_binTotal_le (data : List Int) (L N : Nat) :
    ∀ (k : Nat) (hs : List Hist), localHistos data L N k = .ok hs →
      ∀ v, binTotal hs v ≤ k * 2 ^ 32 := by
  intro k
  induction k with
  | zero =>
    intro hs he v
    simp only [localHistos, Except.ok.injEq] at he
    subst he
    simp [binTotal]
  | succ k ih =>
    intro hs he v
    cases h1 : localHistos data L N k with
    | error e => simp only [localHistos, h1] at he; cases he
    | ok hs0 =>
      cases h2 : localWorker data L N k with
      | error e => simp only [localHistos, h1, h2] at he; cases he
      | ok h =>
        simp only [localHistos, h1, h2, Except.ok.injEq] at he
        subst he
        have a := ih hs0 h1 v
        have b := countFrom_getD_le data _ _ zeroHist h h2 v
        have c := workerEnd_lt L N k
        rw [getD_zeroHist] at b
        rw [binTotal_append]
        omega

theorem binTotal_perm (l1 l2 : List Hist) (hp : List.Perm l1 l2) (v : Nat) :
    binTotal l1 v = binTotal l2 v := by
  unfold binTotal
  exact (hp.map _).sum_eq

/-- The merge of a list of 256-bin histograms into 256 zeros. -/
theorem mergeAll_zero (locals : List Hist) (hlen : ∀ l ∈ locals, l.length = 256) :
    (mergeAll zeroHist locals).length = 256 ∧
      ∀ v, (mergeAll zeroHist locals).getD v 0 = binTotal locals v := by
  obtain ⟨h1, h2⟩ := mergeAll_spec locals zeroHist length_zeroHist hlen
  exact ⟨h1, fun v => by rw [h2 v, getD_zeroHist, Nat.zero_add]⟩

theorem binSum_zeroHist : binSum zeroHist = 0 := by
  have hz : ∀ v, zeroHist.getD v 0 = rangeCount ([] : List Int) 0 0 v := by
    intro v
    rw [getD_zeroHist, rangeCount_zero]
  rw [binSum_of_rangeCount [] zeroHist 0 0 length_zeroHist hz]
  rfl

theorem workLoad_of_lt (L N : Nat) (h : L < N) : workLoad L N = 0 := by
  unfold workLoad
  exact Nat.div_eq_of_lt h

theorem workerStart_of_workLoad_zero (L N i : Nat) (h : workLoad L N = 0) :
    workerStart L N i = 0 := by
  unfold workerStart
  rw [h]
  simp

theorem workerEnd_of_workLoad_zero (L N i : Nat) (h : workLoad L N = 0) (hi : i + 1 < N) :
    workerEnd L N i = 0 := by
  have hne : ¬ i = N - 1 := by omega
  unfold workerEnd
  rw [if_neg hne, workerStart_of_workLoad_zero L N i h, h]
  simp

theorem localWorker_of_empty_range (data : List Int) (L N i : Nat)
    (hs : workerStart L N i = 0) (he : workerEnd L N i = 0) :
    localWorker data L N i = .ok zeroHist := by
  unfold localWorker
  rw [hs, he]
  rfl

/-! ## The claims on `localHist`, the merge and `main` -/

/-- C13. For `L < 2 ^ 32` and `N >= 1`, with `w = L / N`: each worker
`i < N - 1` of `localHist` has `start = i * w`, `end = start + w` and counts
`w` bytes, and the last worker has `start = (N - 1) * w`, `end = L` and
counts `w + L mod N` bytes. At `L = 2 ^ 32` with one worker this fails: the
last (and only) worker has `end` stored as `0`, not `L`, and counts no byte,
where `w + L mod N` is `2 ^ 32`. -/
theorem remainder_to_last_worker_up_to_uint_range :
    (∀ (data : List Int) (N : Nat), 1 ≤ N → data.length < 2 ^ 32 →
      (∀ i, i + 1 < N →
        workerStart data.length N i = i * workLoad data.length N ∧
        workerEnd data.length N i
          = workerStart data.length N i + workLoad data.length N ∧
        ∃ h, localWorker data data.length N i = .ok h ∧
          binSum h = workLoad data.length N) ∧
      workerStart data.length N (N - 1) = (N - 1) * workLoad data.length N ∧
      workerEnd data.length N (N - 1) = data.length ∧
      ∃ h, localWorker data data.length N (N - 1) = .ok h ∧
        binSum h = workLoad data.length N + data.length % N) ∧
    (workLoad (2 ^ 32) 1 + 2 ^ 32 % 1 = 2 ^ 32 ∧
      workerStart (2 ^ 32) 1 (1 - 1) = 0 ∧ workerEnd (2 ^ 32) 1 (1 - 1) = 0 ∧
      localWorker (List.replicate (2 ^ 32) 0) (2 ^ 32) 1 (1 - 1) = .ok zeroHist ∧
      binSum zeroHist = 0) := by
  refine ⟨fun data N hN hL => ⟨fun i hi => ?_, ?_, ?_, ?_⟩, by decide, by decide, by decide,
    localWorker_of_empty_range _ _ _ _ (by decide) (by decide), binSum_zeroHist⟩
  · have hs := workerStart_small data.length N i hL (by omega)
    have he := workerEnd_small_inner data.length N i hL hi
    obtain ⟨h, h1, _, h3⟩ := localWorker_binSum data data.length N i
      (workerInBounds_small data N i hL (by omega))
    refine ⟨hs, ?_, h, h1, ?_⟩
    · rw [he, hs, Nat.add_mul, Nat.one_mul]
    · rw [h3, he, hs, Nat.add_mul, Nat.one_mul]
      omega
  · exact workerStart_small data.length N (N - 1) hL (by omega)
  · exact workerEnd_small_last data.length N hL
  · obtain ⟨h, h1, _, h3⟩ := localWorker_binSum data data.length N (N - 1)
      (workerInBounds_small data N (N - 1) hL (by omega))
    refine ⟨h, h1, ?_⟩
    rw [h3, workerEnd_small_last data.length N hL,
      workerStart_small data.length N (N - 1) hL (by omega)]
    obtain ⟨k, rfl⟩ : ∃ k, N = k + 1 := ⟨N - 1, by omega⟩
    have hd := Nat.div_add_mod data.length (k + 1)
    have hm : (k + 1) * (data.length / (k + 1))
        = k * (data.length / (k + 1)) + data.length / (k + 1) := by ring
    unfold workLoad
    simp only [Nat.add_sub_cancel]
    rw [hm] at hd
    generalize data.length / (k + 1) = w at hd ⊢
    generalize data.length % (k + 1) = r at hd ⊢
    generalize k * w = p at hd ⊢
    omega

/-- C14. The merge loop of `localHist`, run over any list of 256-bin private
histograms from a final histogram of 256 zeros, leaves in every bin `v` the
sum over the workers of their bin `v`, and a permutation of the private
histograms gives the same final histogram. (The counters are not reduced:
those that `localHist` merges add up to at most `N * 2 ^ 32` per bin.) -/
theorem merge_is_sum_in_any_order (locals locals2 : List Hist)
    (hlen : ∀ l ∈ locals, l.length = 256) (hperm : List.Perm locals locals2) :
    (mergeAll zeroHist locals).length = 256 ∧
    (∀ v, v < 256 → (mergeAll zeroHist locals).getD v 0 = binTotal locals v) ∧
    mergeAll zeroHist locals2 = mergeAll zeroHist locals ∧
    (∀ (data : List Int) (L N : Nat) (hs : List Hist),
      localHistos data L N N = .ok hs → ∀ v, binTotal hs v ≤ N * 2 ^ 32) := by
  obtain ⟨a1, a2⟩ := mergeAll_zero locals hlen
  obtain ⟨b1, b2⟩ := mergeAll_zero locals2
    (fun l hl => hlen l (hperm.symm.subset hl))
  refine ⟨a1, fun v _ => a2 v, ?_, fun data L N hs he v =>
    localHistos_binTotal_le data L N N hs he v⟩
  exact hist_ext _ _ b1 a1 (fun v _ => by
    rw [b2 v, a2 v, binTotal_perm locals locals2 hperm v])

/-- C14 on two private histograms merged in both orders. -/
theorem merge_is_sum_in_any_order_witness :
    (∀ v, v < 256 →
      (mergeAll zeroHist [zeroHist.set 3 5, zeroHist.set 7 2]).getD v 0
        = binTotal [zeroHist.set 3 5, zeroHist.set 7 2] v) ∧
    mergeAll zeroHist [zeroHist.set 7 2, zeroHist.set 3 5]
      = mergeAll zeroHist [zeroHist.set 3 5, zeroHist.set 7 2] := by
  have hlen : ∀ l ∈ [zeroHist.set 3 5, zeroHist.set 7 2], l.length = 256 := by
    intro l hl
    rcases List.mem_pair.mp hl with e | e <;>
      (rw [e, List.length_set]; exact length_zeroHist)
  have key := merge_is_sum_in_any_order [zeroHist.set 3 5, zeroHist.set 7 2]
    [zeroHist.set 7 2, zeroHist.set 3 5] hlen (List.Perm.swap _ _ _)
  exact ⟨key.2.1, key.2.2.1⟩

/-- C15. With more workers than bytes (`L < N`, `N` an `int`): `workLoad` is
`0`, every worker `i < N - 1` of `localHist` has `start = end = 0` and a
private histogram of 256 zeros, the last worker has the range `[0, L)`, and
the merged histogram is the exact one. -/
theorem more_workers_than_bytes (data : List Int) (N : Nat)
    (hL : data.length < N) (hN : N < 2 ^ 31) :
    workLoad data.length N = 0 ∧
    (∀ i, i + 1 < N →
      workerStart data.length N i = 0 ∧ workerEnd data.length N i = 0 ∧
      localWorker data data.length N i = .ok zeroHist) ∧
    workerStart data.length N (N - 1) = 0 ∧
    workerEnd data.length N (N - 1) = data.length ∧
    ∃ h, localHist data data.length N = .ok h ∧ h.length = 256 ∧
      ∀ v, v < 256 → h.getD v 0 = exactCount data v := by
  have hw := workLoad_of_lt data.length N hL
  have h32 : data.length < 2 ^ 32 := by omega
  refine ⟨hw, fun i hi => ?_, workerStart_of_workLoad_zero _ _ _ hw,
    workerEnd_small_last data.length N h32, ?_⟩
  · have hs := workerStart_of_workLoad_zero data.length N i hw
    have he := workerEnd_of_workLoad_zero data.length N i hw hi
    exact ⟨hs, he, localWorker_of_empty_range data _ _ _ hs he⟩
  · obtain ⟨h, h1, h2, h3⟩ := localHist_exact_small data N h32 (by omega)
    exact ⟨h, h1, h2, fun v _ => h3 v⟩

/-- C15 on three bytes and five workers. -/
theorem more_workers_than_bytes_witness :
    workLoad 3 5 = 0 ∧ workerEnd 3 5 (5 - 1) = 3 ∧
    ∃ h, localHist [0, -1, 0] 3 5 = .ok h ∧ h.length = 256 ∧
      ∀ v, v < 256 → h.getD v 0 = exactCount [0, -1, 0] v := by
  have key := more_workers_than_bytes [0, -1, 0] 5 (by decide) (by decide)
  exact ⟨key.1, key.2.2.2.1, key.2.2.2.2⟩

/-- C16. `main` hands the value of `thread::hardware_concurrency()` to
`globalHist` and `localHist` as it is: a value `h` with `1 <= h < 2 ^ 31` is
passed on as `h`, and the value `0`, which the detection may return, is
passed on as `0`, so that `localHist` divides by zero at line 96. -/
theorem main_passes_worker_count_unchecked :
    (∀ (data : List Int) (h : Nat), 1 ≤ h → h < 2 ^ 31 →
      main 2 (some data) h = .histograms h (localHist data data.length h)) ∧
    (∀ (data : List Int),
      main 2 (some data) 0 = .histograms 0 (.error .divByZero)) := by
  refine ⟨fun data h h1 h2 => ?_, fun data => ?_⟩
  · have ht : toInt32 h = (h : Int) := toInt32_small h h2
    have hn : ¬ ((h : Int) < 0) := by omega
    have h2' : ¬ ((2 : Int) > 2) := by decide
    simp only [main, ht, h2', if_false, hn, Int.toNat_ofNat]
  · have ht : toInt32 0 = 0 := rfl
    have hn : ¬ ((0 : Int) < 0) := by decide
    have h2' : ¬ ((2 : Int) > 2) := by decide
    have hl : localHist data data.length 0 = .error .divByZero := by
      simp only [localHist, if_true]
    simp only [main, ht, h2', if_false, hn, Int.toNat_zero, hl]

/-- C17. For every buffer and `N >= 1`, every offset `j` that a worker of
`localHist` reads (`start <= j < end`, with `start` and `end` reduced to 32
bits) is below the length of the buffer, so `localHist` returns a histogram
and never the fault of a read outside the buffer. -/
theorem localHist_reads_in_bounds (data : List Int) (N : Nat) (hN : 1 ≤ N) :
    (∀ i j, i < N → workerStart data.length N i ≤ j → j < workerEnd data.length N i →
      j < data.length) ∧
    (∃ h, localHist data data.length N = .ok h) ∧
    localHist data data.length N ≠ .error .oobRead := by
  obtain ⟨h, h1, _, _⟩ := localHist_counts data data.length N hN
    (fun i hi => workerInBounds_all data N i hi)
  refine ⟨fun i j hi h1 h2 => ?_, ⟨h, h1⟩, by rw [h1]; exact fun e => by cases e⟩
  have := workerInBounds_all data N i hi
  unfold WorkerInBounds at this
  omega

/-- C17 on `2 ^ 32 + 10` bytes and three workers, where the last worker's
`end` is stored as `10`. -/
theorem localHist_reads_in_bounds_witness :
    workerEnd (2 ^ 32 + 10) 3 2 = 10 ∧
    ∃ h, localHist (List.replicate (2 ^ 32 + 10) 0)
      (List.replicate (2 ^ 32 + 10) (0 : Int)).length 3 = .ok h :=
  ⟨by decide,
   (localHist_reads_in_bounds (List.replicate (2 ^ 32 + 10) 0) 3 (by decide)).2.1⟩

/-! ## The mutex discipline of `globalHist` -/

theorem MutexOk_congr (s s1 : GState) (j : Nat) (pc : PC)
    (hm : s1.histoMutex = s.histoMutex) (hh : s1.GlobalHist = s.GlobalHist)
    (h : MutexOk s j pc) : MutexOk s1 j pc := by
  cases pc <;> simp only [MutexOk, hm, hh] at h ⊢ <;> exact h

theorem MutexOk_not_holder (s : GState) (j : Nat) (pc : PC) (h : MutexOk s j pc)
    (hp : holdsLock pc = false) : s.histoMutex ≠ some j := by
  cases pc with
  | fetch => exact h
  | lock b => exact h.2
  | load b => cases hp
  | store b t => cases hp
  | unlock => cases hp
  | done => exact h
  | fault f => exact h

theorem MutexOk_holder (s : GState) (j : Nat) (pc : PC) (h : MutexOk s j pc)
    (hp : holdsLock pc = true) : s.histoMutex = some j := by
  cases pc with
  | fetch => cases hp
  | lock b => cases hp
  | load b => exact h.2
  | store b t => exact h.1
  | unlock => exact h
  | done => cases hp
  | fault f => cases hp

/-- A worker that does not hold the mutex is not disturbed by a change of
the mutex or the bins that leaves the mutex away from it. -/
theorem MutexOk_other (s s1 : GState) (j : Nat) (pc : PC) (h : MutexOk s j pc)
    (hp : holdsLock pc = false) (hne : s1.histoMutex ≠ some j) : MutexOk s1 j pc := by
  cases pc with
  | fetch => exact hne
  | lock b => exact ⟨h.1, hne⟩
  | load b => cases hp
  | store b t => cases hp
  | unlock => cases hp
  | done => exact hne
  | fault f => exact hne

theorem holdsLock_eq_false (pc : PC) (h : ¬ holdsLock pc = true) : holdsLock pc = false := by
  cases hp : holdsLock pc with
  | true => exact (h hp).elim
  | false => rfl

theorem mutexInv_init (c0 N : Nat) : MutexInv (ginit c0 N) := by
  refine ⟨length_zeroHist, ?_, ?_⟩
  · intro j pc hj
    simp only [ginit, List.getElem?_replicate] at hj
    split at hj
    · cases hj
      exact fun e => by cases e
    · cases hj
  · intro j hj
    cases hj

/-- The workers after worker `i` moves to `pc1`, as `MutexOk` sees them. -/
theorem mutexOk_set (s s1 : GState) (i : Nat) (pc1 : PC)
    (hw : s1.workers = s.workers.set i pc1)
    (hpcs : ∀ j pc, s.workers[j]? = some pc → MutexOk s j pc)
    (hi : MutexOk s1 i pc1)
    (hrest : ∀ j pc, j ≠ i → s.workers[j]? = some pc → MutexOk s j pc → MutexOk s1 j pc) :
    ∀ j pc, s1.workers[j]? = some pc → MutexOk s1 j pc := by
  intro j pc hj
  rw [hw, List.getElem?_set] at hj
  by_cases hij : i = j
  · subst hij
    rw [if_pos rfl] at hj
    split at hj
    · cases hj; exact hi
    · cases hj
  · rw [if_neg hij] at hj
    exact hrest j pc (fun e => hij e.symm) hj (hpcs j pc hj)

/-- The owner of the mutex after a step of worker `i` that ends at `pc1`. -/
theorem owner_set (s s1 : GState) (i : Nat) (pc0 pc1 : PC)
    (hw : s1.workers = s.workers.set i pc1) (hpc : s.workers[i]? = some pc0)
    (hold : ∀ j, s1.histoMutex = some j → j ≠ i →
      ∃ pc, s.workers[j]? = some pc ∧ holdsLock pc = true)
    (hnew : s1.histoMutex = some i → holdsLock pc1 = true) :
    ∀ j, s1.histoMutex = some j →
      ∃ pc, s1.workers[j]? = some pc ∧ holdsLock pc = true := by
  intro j hj
  have hlen : i < s.workers.length := (List.getElem?_eq_some.mp hpc).1
  by_cases hji : j = i
  · subst hji
    refine ⟨pc1, ?_, hnew hj⟩
    rw [hw, List.getElem?_set, if_pos rfl, if_pos hlen]
  · obtain ⟨pc, h1, h2⟩ := hold j hj hji
    refine ⟨pc, ?_, h2⟩
    rw [hw, List.getElem?_set, if_neg (fun e => hji e.symm)]
    exact h1

/-- A step of worker `i` that leaves the mutex with `i` or free keeps the
other workers as `MutexOk` requires, when no other worker holds the mutex. -/
theorem mutexOk_rest (s s1 : GState) (i : Nat)
    (hm : s.histoMutex = some i ∨ s.histoMutex = none)
    (hm1 : s1.histoMutex = some i ∨ s1.histoMutex = none) :
    ∀ j pc, j ≠ i → s.workers[j]? = some pc → MutexOk s j pc → MutexOk s1 j pc := by
  intro j pc hji hj hok
  have hne1 : s1.histoMutex ≠ some j := by
    rcases hm1 with e | e
    · rw [e]; exact fun e1 => hji (Option.some.inj e1).symm
    · rw [e]; exact fun e1 => by cases e1
  have hne : s.histoMutex ≠ some j := by
    rcases hm with e | e
    · rw [e]; exact fun e1 => hji (Option.some.inj e1).symm
    · rw [e]; exact fun e1 => by cases e1
  by_cases hp : holdsLock pc = true
  · exact (hne (MutexOk_holder s j pc hok hp)).elim
  · exact MutexOk_other s s1 j pc hok (holdsLock_eq_false pc hp) hne1

/-- A step of a worker that is outside the critical section and stays
outside, leaving the mutex and the bins as they are. -/
theorem mutexInv_outside (s s1 : GState) (i : Nat) (pc0 pc1 : PC) (I : MutexInv s)
    (hpc : s.workers[i]? = some pc0) (h0 : holdsLock pc0 = false)
    (hm : s1.histoMutex = s.histoMutex) (hh : s1.GlobalHist = s.GlobalHist)
    (hw : s1.workers = s.workers.set i pc1)
    (hnew : s.histoMutex ≠ some i → MutexOk s1 i pc1) : MutexInv s1 := by
  have hni := MutexOk_not_holder s i pc0 (I.pcs i pc0 hpc) h0
  refine ⟨by rw [hh]; exact I.nBins, ?_, ?_⟩
  · exact mutexOk_set s s1 i pc1 hw I.pcs (hnew hni)
      (fun j pc _ _ hok => MutexOk_congr s s1 j pc hm hh hok)
  · refine owner_set s s1 i pc0 pc1 hw hpc (fun j hj _ => I.owner j (by rw [← hm]; exact hj)) ?_
    intro hi
    rw [hm] at hi
    exact (hni hi).elim

/-- Every step of a worker keeps the mutex discipline, whatever the buffer,
the length and the cursor. -/
theorem mutexInv_step (data : List Int) (L : Nat) (s s1 : GState) (i : Nat)
    (I : MutexInv s) (h : gstep data L s i = some s1) : MutexInv s1 := by
  cases hpc : s.workers[i]? with
  | none => simp only [gstep, hpc] at h; cases h
  | some pc =>
    have hok := I.pcs i pc hpc
    cases pc with
    | fetch =>
      simp only [gstep, hpc] at h
      split at h
      · cases h
        exact mutexInv_outside s _ i _ .done I hpc rfl rfl rfl rfl (fun hn => hn)
      · split at h
        · cases h
          exact mutexInv_outside s _ i _ (.fault .oobRead) I hpc rfl rfl rfl rfl
            (fun hn => hn)
        · cases h
          exact mutexInv_outside s _ i _ (.lock (toUChar _)) I hpc rfl rfl rfl rfl
            (fun hn => ⟨toUChar_lt _, hn⟩)
    | lock b =>
      cases hm : s.histoMutex with
      | some o => simp only [gstep, hpc, hm] at h; cases h
      | none =>
        simp only [gstep, hpc, hm] at h
        cases h
        refine ⟨I.nBins, ?_, ?_⟩
        · exact mutexOk_set s _ i (.load b) rfl I.pcs ⟨hok.1, rfl⟩
            (mutexOk_rest s _ i (Or.inr hm) (Or.inl rfl))
        · refine owner_set s _ i _ (.load b) rfl hpc ?_ (fun _ => rfl)
          intro j hj hji
          simp only [GState.goto, Option.some.injEq] at hj
          exact (hji hj.symm).elim
    | load b =>
      have hb : b < s.GlobalHist.length := by rw [I.nBins]; exact hok.1
      simp only [gstep, hpc, hb, if_true] at h
      cases h
      refine ⟨I.nBins, ?_, ?_⟩
      · exact mutexOk_set s _ i _ rfl I.pcs ⟨hok.2, rfl⟩
          (fun j pc _ _ hokj => MutexOk_congr s _ j pc rfl rfl hokj)
      · refine owner_set s _ i _ _ rfl hpc ?_ (fun _ => rfl)
        intro j hj hji
        simp only [GState.goto] at hj
        rw [hok.2] at hj
        exact (hji (Option.some.inj hj).symm).elim
    | store b t =>
      simp only [gstep, hpc] at h
      cases h
      refine ⟨by simp only [GState.goto, List.length_set]; exact I.nBins, ?_, ?_⟩
      · exact mutexOk_set s _ i .unlock rfl I.pcs hok.1
          (mutexOk_rest s _ i (Or.inl hok.1) (Or.inl hok.1))
      · refine owner_set s _ i _ .unlock rfl hpc ?_ (fun _ => rfl)
        intro j hj hji
        simp only [GState.goto] at hj
        rw [hok.1] at hj
        exact (hji (Option.some.inj hj).symm).elim
    | unlock =>
      simp only [gstep, hpc] at h
      cases h
      refine ⟨I.nBins, ?_, ?_⟩
      · exact mutexOk_set s _ i .fetch rfl I.pcs (fun e => by cases e)
          (mutexOk_rest s _ i (Or.inl hok) (Or.inr rfl))
      · intro j hj
        cases hj
    | done => simp only [gstep, hpc] at h; cases h
    | fault f => simp only [gstep, hpc] at h; cases h

theorem mutexInv_run (data : List Int) (L : Nat) :
    ∀ (sched : List Nat) (s s1 : GState), MutexInv s →
      grun data L s sched = some s1 → MutexInv s1 := by
  intro sched
  induction sched with
  | nil =>
    intro s s1 I h
    simp only [grun, Option.some.injEq] at h
    subst h
    exact I
  | cons i rest ih =>
    intro s s1 I h
    cases hstep : gstep data L s i with
    | none => simp only [grun, hstep] at h; cases h
    | some s2 =>
      simp only [grun, hstep] at h
      exact ih s2 s1 (mutexInv_step data L s s2 i I hstep) h

/-- The bins change only at the write of `GlobalHist[currData]++`. -/
theorem gstep_bins (data : List Int) (L : Nat) (s s1 : GState) (i : Nat) (pc : PC)
    (hpc : s.workers[i]? = some pc) (h : gstep data L s i = some s1) :
    (∀ b t, pc = PC.store b t → s1.GlobalHist = s.GlobalHist.set b (t + 1)) ∧
    ((∀ b t, pc ≠ PC.store b t) → s1.GlobalHist = s.GlobalHist) := by
  cases pc with
  | fetch =>
    refine ⟨fun b t e => (by cases e), fun _ => ?_⟩
    simp only [gstep, hpc] at h
    split at h
    · cases h; rfl
    · split at h <;> (cases h; rfl)
  | lock b =>
    refine ⟨fun b t e => (by cases e), fun _ => ?_⟩
    simp only [gstep, hpc] at h
    split at h
    · cases h
    · cases h; rfl
  | load b =>
    refine ⟨fun b t e => (by cases e), fun _ => ?_⟩
    simp only [gstep, hpc] at h
    split at h <;> (cases h; rfl)
  | store b t =>
    refine ⟨fun b1 t1 e => ?_, fun hne => (hne b t rfl).elim⟩
    cases e
    simp only [gstep, hpc] at h
    cases h
    rfl
  | unlock =>
    refine ⟨fun b t e => (by cases e), fun _ => ?_⟩
    simp only [gstep, hpc] at h
    cases h
    rfl
  | done => simp only [gstep, hpc] at h; cases h
  | fault f => simp only [gstep, hpc] at h; cases h

/-! ## The claims handed out by the cursor -/

/-- Only the step at `fetch` moves the cursor, by one (modulo `2 ^ 64`). -/
theorem gstep_cursor (data : List Int) (L : Nat) (s s1 : GState) (i : Nat)
    (h : gstep data L s i = some s1) :
    s1.globalIndex = if s.workers[i]? = some PC.fetch
      then (s.globalIndex + 1) % SIZE_T_MOD else s.globalIndex := by
  cases hpc : s.workers[i]? with
  | none => simp only [gstep, hpc] at h; cases h
  | some pc =>
    cases pc with
    | fetch =>
      simp only [gstep, hpc] at h
      rw [if_pos rfl]
      split at h
      · cases h; rfl
      · split at h <;> (cases h; rfl)
    | lock b =>
      rw [if_neg (fun e => by cases e)]
      simp only [gstep, hpc] at h
      split at h
      · cases h
      · cases h; rfl
    | load b =>
      rw [if_neg (fun e => by cases e)]
      simp only [gstep, hpc] at h
      split at h <;> (cases h; rfl)
    | store b t =>
      rw [if_neg (fun e => by cases e)]
      simp only [gstep, hpc] at h
      cases h
      rfl
    | unlock =>
      rw [if_neg (fun e => by cases e)]
      simp only [gstep, hpc] at h
      cases h
      rfl
    | done => simp only [gstep, hpc] at h; cases h
    | fault f => simp only [gstep, hpc] at h; cases h

/-- Inside a claim window a step moves the cursor up by one at `fetch` and
leaves it where it is otherwise. -/
theorem ginv_cursor_step (data : List Int) (L c0 M N : Nat) (s s1 : GState) (i : Nat)
    (W : ClaimWindow data L c0 M N) (I : GInv data c0 M N s)
    (h : gstep data L s i = some s1) :
    s1.globalIndex = if s.workers[i]? = some PC.fetch
      then s.globalIndex + 1 else s.globalIndex := by
  rw [gstep_cursor data L s s1 i h]
  by_cases hpc : s.workers[i]? = some PC.fetch
  · rw [if_pos hpc, if_pos hpc]
    have hd := wsum_doneW_lt s.workers i .fetch hpc rfl
    have h1 := I.dones
    have h2 := I.nWorkers
    have h3 := I.hi
    have h4 := W.noWrap
    exact Nat.mod_eq_of_lt (by unfold SIZE_T_MOD; omega)
  · rw [if_neg hpc, if_neg hpc]

/-- Along a schedule inside a claim window the cursor does not go down and
the claims are the consecutive cursor values, each handed out once. -/
theorem claims_run (data : List Int) (L c0 M N : Nat) (W : ClaimWindow data L c0 M N) :
    ∀ (sched : List Nat) (s s1 : GState), GInv data c0 M N s →
      grun data L s sched = some s1 →
      s.globalIndex ≤ s1.globalIndex ∧
      claimsOf data L s sched
        = List.range' s.globalIndex (s1.globalIndex - s.globalIndex) := by
  intro sched
  induction sched with
  | nil =>
    intro s s1 I h
    simp only [grun, Option.some.injEq] at h
    subst h
    simp [claimsOf]
  | cons i rest ih =>
    intro s s1 I h
    cases hstep : gstep data L s i with
    | none => simp only [grun, hstep] at h; cases h
    | some s2 =>
      simp only [grun, hstep] at h
      obtain ⟨I2, _⟩ := ginv_step data L c0 M N s s2 i W I hstep
      obtain ⟨hle, hcl⟩ := ih s2 s1 I2 h
      have hc := ginv_cursor_step data L c0 M N s s2 i W I hstep
      simp only [claimsOf, hstep, hcl]
      by_cases hpc : s.workers[i]? = some PC.fetch
      · rw [if_pos hpc] at hc
        rw [if_pos hpc, hc]
        refine ⟨by omega, ?_⟩
        have : s1.globalIndex - s.globalIndex
            = (s1.globalIndex - (s.globalIndex + 1)) + 1 := by omega
        rw [this, List.range'_succ]
        rfl
      · rw [if_neg hpc] at hc
        rw [hc] at hle
        rw [if_neg hpc, hc]
        exact ⟨hle, rfl⟩

/-- Of the cursor values of a claim window and of the stopping values after
it, the ones that pass the test of line 65 are those of the window, each
used as the offset of its own value. -/
theorem processedOf_window (data : List Int) (L c0 M N k : Nat)
    (W : ClaimWindow data L c0 M N) (hk : k ≤ N) :
    processedOf L (List.range' c0 (M + k))
      = List.map (fun c : Nat => (c : Int)) (List.range' c0 M) := by
  have hsplit : List.range' c0 (M + k) = List.range' c0 M ++ List.range' (c0 + M) k := by
    have := List.range'_append c0 M k 1
    rw [Nat.one_mul, Nat.add_comm k M] at this
    exact this.symm
  have hin : ∀ c ∈ List.range' c0 M, c0 ≤ c ∧ c < c0 + M := by
    intro c hc
    obtain ⟨j, hj, rfl⟩ := List.mem_range'.mp hc
    omega
  have hout : ∀ c ∈ List.range' (c0 + M) k, c0 + M ≤ c ∧ c < c0 + M + N := by
    intro c hc
    obtain ⟨j, hj, rfl⟩ := List.mem_range'.mp hc
    omega
  unfold processedOf
  rw [hsplit, List.filter_append]
  have h1 : (List.range' c0 M).filter
      (fun c => decide (intToSizeT (toInt32 c) < L)) = List.range' c0 M := by
    rw [List.filter_eq_self]
    intro c hc
    obtain ⟨a, b⟩ := hin c hc
    have hM : 0 < M := by omega
    have hf := W.fits hM
    have hb := W.below hM
    rw [toInt32_small c (by omega), intToSizeT_small c (by omega)]
    exact decide_eq_true (by omega)
  have h2 : (List.range' (c0 + M) k).filter
      (fun c => decide (intToSizeT (toInt32 c) < L)) = [] := by
    rw [List.filter_eq_nil_iff]
    intro c hc
    obtain ⟨a, b⟩ := hout c hc
    have := W.stops c a b
    simp only [decide_eq_true_eq]
    omega
  rw [h1, h2, List.append_nil]
  apply List.map_congr_left
  intro c hc
  obtain ⟨a, b⟩ := hin c hc
  have hM : 0 < M := by omega
  have hf := W.fits hM
  exact toInt32_small c (by omega)

/-- A call of `globalHist` over a claim window hands out the cursor values
from `c0` on, one per claim; no step moves the cursor down; the workers that
have left are as many as the claims past the window; and at the end the
offsets counted are those of the window, once each. -/
theorem claims_window (data : List Int) (L c0 M N : Nat)
    (W : ClaimWindow data L c0 M N) (hN : 1 ≤ N)
    (sched : List Nat) (s : GState) (h : grun data L (ginit c0 N) sched = some s) :
    c0 ≤ s.globalIndex ∧ s.globalIndex ≤ c0 + M + N ∧
    claimsOf data L (ginit c0 N) sched = List.range' c0 (s.globalIndex - c0) ∧
    wsum doneW s.workers = s.globalIndex - (c0 + M) ∧
    (∀ i s1, gstep data L s i = some s1 → s.globalIndex ≤ s1.globalIndex) ∧
    (allDone s = true →
      processedOf L (claimsOf data L (ginit c0 N) sched)
        = List.map (fun c : Nat => (c : Int)) (List.range' c0 M)) := by
  have I0 := ginv_init data c0 M N
  obtain ⟨I, _⟩ := ginv_run data L c0 M N W sched _ s I0 h
  have hcl : claimsOf data L (ginit c0 N) sched = List.range' c0 (s.globalIndex - c0) :=
    (claims_run data L c0 M N W sched _ s I0 h).2
  refine ⟨I.lo, I.hi, hcl, I.dones, fun i s1 hs => ?_, fun hd => ?_⟩
  · have := ginv_cursor_step data L c0 M N s s1 i W I hs
    split at this <;> omega
  · obtain ⟨hgi, _, _⟩ := ginv_final data c0 M N s hN I hd
    have : c0 + M + N - c0 = M + N := by omega
    rw [hcl, hgi, this]
    exact processedOf_window data L c0 M N N W (le_refl _)

/-- A call of `globalHist` without workers takes no step. -/
theorem grun_no_workers (data : List Int) (L c0 : Nat) (sched : List Nat) (s : GState)
    (h : grun data L (ginit c0 0) sched = some s) : s = ginit c0 0 := by
  cases sched with
  | nil =>
    simp only [grun, Option.some.injEq] at h
    exact h.symm
  | cons i rest =>
    have : gstep data L (ginit c0 0) i = none := rfl
    simp only [grun, this] at h
    cases h

/-! ## The claims on the cursor and the critical section -/

/-- C11. For a buffer of at most `2 ^ 31` bytes, `N >= 1` workers and the
cursor at zero, along every schedule: the values handed out by the
`fetch_add` steps are `0, 1, ..` up to the cursor, each once; no step moves
the cursor down; and when all workers have finished, the offsets counted are
`0 .. L - 1`, each once, and the bins are the exact counts. Past `2 ^ 31`
bytes the last part fails: on `2 ^ 31 + 1` zero bytes with one worker the
cursor values `0 .. 2 ^ 31` are handed out, but only the offsets below
`2 ^ 31` are counted, so offset `2 ^ 31` is never processed. -/
theorem claims_exactly_once_up_to_int_range :
    (∀ (data : List Int) (N : Nat), 1 ≤ N → N < 2 ^ 31 → data.length ≤ 2 ^ 31 →
      ∀ sched s, grun data data.length (ginit 0 N) sched = some s →
        claimsOf data data.length (ginit 0 N) sched = List.range s.globalIndex ∧
        (claimsOf data data.length (ginit 0 N) sched).Nodup ∧
        (∀ i s1, gstep data data.length s i = some s1 →
          s.globalIndex ≤ s1.globalIndex) ∧
        (allDone s = true →
          processedOf data.length (claimsOf data data.length (ginit 0 N) sched)
            = List.map (fun j : Nat => (j : Int)) (List.range data.length) ∧
          ∀ v, v < 256 → s.GlobalHist.getD v 0 = exactCount data v)) ∧
    ((∃ sched s, grun (List.replicate (2 ^ 31 + 1) 0) (2 ^ 31 + 1) (ginit 0 1) sched = some s ∧
        allDone s = true) ∧
      ∀ sched s, grun (List.replicate (2 ^ 31 + 1) 0) (2 ^ 31 + 1) (ginit 0 1) sched = some s →
        allDone s = true →
        claimsOf (List.replicate (2 ^ 31 + 1) 0) (2 ^ 31 + 1) (ginit 0 1) sched
          = List.range (2 ^ 31 + 1) ∧
        processedOf (2 ^ 31 + 1)
            (claimsOf (List.replicate (2 ^ 31 + 1) 0) (2 ^ 31 + 1) (ginit 0 1) sched)
          = List.map (fun j : Nat => (j : Int)) (List.range (2 ^ 31)) ∧
        ((2 ^ 31 : Nat) : Int) ∉ processedOf (2 ^ 31 + 1)
            (claimsOf (List.replicate (2 ^ 31 + 1) 0) (2 ^ 31 + 1) (ginit 0 1) sched) ∧
        s.GlobalHist.getD 0 0 = 2 ^ 31) := by
  refine ⟨fun data N hN1 hN hL sched s hrun => ?_, ?_, fun sched s hrun hd => ?_⟩
  · have W := claimWindow_zero data N (by omega) (by omega)
    have hm : min data.length (2 ^ 31) = data.length := by omega
    rw [hm] at W
    obtain ⟨_, _, c3, _, c5, c6⟩ := claims_window data data.length 0 data.length N W hN1 sched s hrun
    rw [Nat.sub_zero, ← List.range_eq_range'] at c3
    refine ⟨c3, by rw [c3]; exact List.nodup_range _, c5, fun hd => ⟨?_, fun v _ => ?_⟩⟩
    · rw [c6 hd, ← List.range_eq_range']
    · exact ((globalHist_exact_small data N hL hN1 (by omega)).2 s.GlobalHist s.globalIndex
        ⟨sched, s, hrun, hd, rfl, rfl⟩).2.2 v
  · obtain ⟨h, k, sched, s, hrun, hd, _, _⟩ := (globalHist_replicate_past 0).1
    exact ⟨sched, s, hrun, hd⟩
  · have hlen : (List.replicate (2 ^ 31 + 1) (0 : Int)).length = 2 ^ 31 + 1 :=
      List.length_replicate _ _
    have W := claimWindow_zero (List.replicate (2 ^ 31 + 1) 0) 1 (by rw [hlen]; omega) (by omega)
    rw [hlen] at W
    have hm : min (2 ^ 31 + 1) (2 ^ 31) = 2 ^ 31 := by omega
    rw [hm] at W
    have I0 := ginv_init (List.replicate (2 ^ 31 + 1) 0) 0 (2 ^ 31) 1
    obtain ⟨I, _⟩ := ginv_run _ _ 0 (2 ^ 31) 1 W sched _ s I0 hrun
    obtain ⟨hgi, _, _⟩ := ginv_final _ 0 (2 ^ 31) 1 s (le_refl _) I hd
    obtain ⟨_, _, c3, _, _, c6⟩ := claims_window _ _ 0 (2 ^ 31) 1 W (le_refl _) sched s hrun
    rw [Nat.sub_zero, ← List.range_eq_range', hgi] at c3
    have hp := c6 hd
    rw [← List.range_eq_range'] at hp
    refine ⟨by rw [c3, Nat.zero_add], hp, ?_, ?_⟩
    · rw [hp]
      intro hmem
      obtain ⟨a, ha, hcast⟩ := List.mem_map.mp hmem
      have := List.mem_range.mp ha
      omega
    · have := ((globalHist_replicate_past 0).2 s.GlobalHist s.globalIndex
        ⟨sched, s, hrun, hd, rfl, rfl⟩).2 0
      rw [this]
      rfl

/-- C12. In every state that a call of `globalHist` reaches, for any buffer,
length, cursor and worker count: at most one worker is between
`histoMutex.lock()` and `histoMutex.unlock()` (where the read and the write
of `GlobalHist[currData]++` are), the mutex is locked exactly while its owner
is there, the value a worker has read from its bin is still in the bin when
it writes, so the write adds exactly one to that bin and leaves the others,
and no other step changes a bin. -/
theorem no_lost_update (data : List Int) (L c0 N : Nat) (sched : List Nat) (s : GState)
    (hrun : grun data L (ginit c0 N) sched = some s) :
    (∀ (i j : Nat) (pi pj : PC), s.workers[i]? = some pi → s.workers[j]? = some pj →
      holdsLock pi = true → holdsLock pj = true → i = j) ∧
    (∀ (j : Nat), s.histoMutex = some j →
      ∃ pc, s.workers[j]? = some pc ∧ holdsLock pc = true) ∧
    (∀ (j : Nat) (pc : PC), s.workers[j]? = some pc → holdsLock pc = true →
      s.histoMutex = some j) ∧
    (∀ (j b t : Nat), s.workers[j]? = some (PC.store b t) → t = s.GlobalHist.getD b 0) ∧
    (∀ (j b t : Nat) (s1 : GState), s.workers[j]? = some (PC.store b t) →
      gstep data L s j = some s1 →
      s1.GlobalHist.getD b 0 = s.GlobalHist.getD b 0 + 1 ∧
      ∀ v, v ≠ b → s1.GlobalHist.getD v 0 = s.GlobalHist.getD v 0) ∧
    (∀ (j : Nat) (pc : PC) (s1 : GState), s.workers[j]? = some pc →
      (∀ b t, pc ≠ PC.store b t) →
      gstep data L s j = some s1 → s1.GlobalHist = s.GlobalHist) := by
  have I := mutexInv_run data L sched _ s (mutexInv_init c0 N) hrun
  have hbin := (binOk_run data L sched _ s length_zeroHist (by
    intro pc hpc
    simp only [ginit] at hpc
    rw [List.eq_of_mem_replicate hpc]
    trivial) hrun).2
  refine ⟨fun i j pi pj hi hj hpi hpj => ?_, I.owner,
    fun j pc hj hp => MutexOk_holder s j pc (I.pcs j pc hj) hp,
    fun j b t hj => (I.pcs j _ hj).2, fun j b t s1 hj hs => ?_,
    fun j pc s1 hj hne hs => (gstep_bins data L s s1 j pc hj hs).2 hne⟩
  · have a := MutexOk_holder s i pi (I.pcs i pi hi) hpi
    have b := MutexOk_holder s j pj (I.pcs j pj hj) hpj
    rw [a] at b
    exact Option.some.inj b
  · have ht : t = s.GlobalHist.getD b 0 := (I.pcs j _ hj).2
    have hb : b < s.GlobalHist.length := by
      rw [I.nBins]
      exact hbin _ (List.getElem?_mem hj)
    rw [(gstep_bins data L s s1 j _ hj hs).1 b t rfl]
    refine ⟨by rw [getD_set_bin _ _ _ b hb, if_pos rfl, ht], fun v hv => ?_⟩
    rw [getD_set_bin _ _ _ v hb, if_neg hv]

set_option maxRecDepth 20000 in
/-- C12 on the buffer `[0x00, 0xFF]` with two workers, after worker 0 has
claimed offset 0, locked and read its bin, and worker 1 has claimed offset 1:
worker 0 alone is in the critical section. -/
theorem no_lost_update_witness :
    grun [0, -1] 2 (ginit 0 2) [0, 0, 0, 1]
      = some { globalIndex := 2, histoMutex := some 0, GlobalHist := zeroHist,
               workers := [PC.store 0 0, PC.lock 255] } ∧
    (∀ (j : Nat) (pc : PC), ([PC.store 0 0, PC.lock 255] : List PC)[j]? = some pc →
      holdsLock pc = true → (some 0 : Option Nat) = some j) :=
  ⟨by decide, (no_lost_update [0, -1] 2 0 2 [0, 0, 0, 1]
    { globalIndex := 2, histoMutex := some 0, GlobalHist := zeroHist,
      workers := [PC.store 0 0, PC.lock 255] } (by decide)).2.2.1⟩

/-- C18 does not hold without workers: on the one-byte buffer `[0x00]` with
`N = 0` the call ends at once with the cursor at `0`, not at `L + N = 1`. -/
theorem cursor_stays_without_workers :
    globalHist [0] ([0] : List Int).length 0 0 zeroHist 0 ∧
    ¬ (∀ h c, globalHist [0] ([0] : List Int).length 0 0 h c →
        c = ([0] : List Int).length + 0) := by
  have hend : globalHist [0] ([0] : List Int).length 0 0 zeroHist 0 :=
    ⟨[], ginit 0 0, rfl, rfl, rfl, rfl⟩
  refine ⟨hend, fun hall => ?_⟩
  have := hall zeroHist 0 hend
  simp at this

/-- C18, amended. For a buffer of fewer than `2 ^ 31` bytes and a worker
count `1 <= N < 2 ^ 31`, a call of `globalHist` entered with the cursor at
zero ends under some schedule, and every end leaves the cursor at `L + N`.
In every state on the way the workers that have left their loop are as many
as the claims at or past `L` (the cursor minus `L`), the cursor is at most
`L + N`, the claims handed out are `0, 1, ..` up to the cursor, and no step
moves the cursor down. Without workers the cursor stays at zero. -/
theorem cursor_overshoot (data : List Int) (N : Nat)
    (hL : data.length < 2 ^ 31) (hN1 : 1 ≤ N) (hN : N < 2 ^ 31) :
    (∃ h c, globalHist data data.length N 0 h c) ∧
    (∀ h c, globalHist data data.length N 0 h c → c = data.length + N) ∧
    (∀ sched s, grun data data.length (ginit 0 N) sched = some s →
      wsum doneW s.workers = s.globalIndex - data.length ∧
      s.globalIndex ≤ data.length + N ∧
      claimsOf data data.length (ginit 0 N) sched = List.range s.globalIndex ∧
      ∀ i s1, gstep data data.length s i = some s1 → s.globalIndex ≤ s1.globalIndex) ∧
    (∀ h c, globalHist data data.length 0 0 h c → h = zeroHist ∧ c = 0) := by
  have W := claimWindow_zero data N (by omega) (by omega)
  have hm : min data.length (2 ^ 31) = data.length := by omega
  rw [hm] at W
  obtain ⟨g1, g2⟩ := globalHist_exact_small data N (by omega) hN1 (by omega)
  refine ⟨g1, fun h c he => (g2 h c he).1, fun sched s hrun => ?_, ?_⟩
  · obtain ⟨_, c2, c3, c4, c5, _⟩ :=
      claims_window data data.length 0 data.length N W hN1 sched s hrun
    rw [Nat.sub_zero, ← List.range_eq_range'] at c3
    rw [Nat.zero_add] at c2 c4
    exact ⟨c4, c2, c3, c5⟩
  · rintro h c ⟨sched, s, hrun, _, rfl, rfl⟩
    rw [grun_no_workers data data.length 0 sched s hrun]
    exact ⟨rfl, rfl⟩

/-- C18, amended, on the buffer `[0x00, 0xFF, 0x00, 0xFF]` with two workers:
every end leaves the cursor at `6`. -/
theorem cursor_overshoot_witness :
    (∃ h c, globalHist [0, -1, 0, -1] 4 2 0 h c) ∧
    ∀ h c, globalHist [0, -1, 0, -1] 4 2 0 h c → c = 4 + 2 :=
  ⟨(cursor_overshoot [0, -1, 0, -1] 2 (by decide) (by decide) (by decide)).1,
   (cursor_overshoot [0, -1, 0, -1] 2 (by decide) (by decide) (by decide)).2.1⟩

end Histogram
